import Mathlib

/-!
Shallow embedding of the `bhopengraph` Python library (an in-memory directed
labeled multigraph store compatible with the BloodHound OpenGraph JSON schema)
and proofs about its operations.

Python dictionaries are embedded as association lists that keep insertion
order, together with the invariant (true of every Python dict) that keys are
pairwise distinct.  Mutating methods become pure functions returning the new
store together with the boolean the method returns.  JSON values are embedded
as the inductive `JValue`; `json.dumps` is an injective rendering of such a
value and is not modelled.
-/

namespace Bhopengraph

/-- JSON-like dynamic values, used for property bags and for the dictionaries
consumed and produced by the (de)serialisation code. -/
inductive JValue where
  | null : JValue
  | jbool (b : Bool) : JValue
  | str (s : String) : JValue
  | num (n : Int) : JValue
  | arr (elems : List JValue) : JValue
  | obj (fields : List (String × JValue)) : JValue

/-- Python truthiness of a `JValue` (`None`, `False`, `""`, `0`, `[]`, `{}`
are falsy, everything else is truthy). -/
def JValue.truthy : JValue → Bool
  | .null => false
  | .jbool b => b
  | .str s => !(s == "")
  | .num n => !(n == 0)
  | .arr elems => !elems.isEmpty
  | .obj fields => !fields.isEmpty

/-- Key membership in an embedded Python dictionary (`k in d`). -/
def dictMem (d : List (String × JValue)) (k : String) : Bool :=
  d.any (fun kv => kv.1 == k)

/-- Lookup in an embedded Python dictionary (`d[k]` / `d.get(k)`). -/
def dictGet? (d : List (String × JValue)) (k : String) : Option JValue :=
  (d.find? (fun kv => kv.1 == k)).map (fun kv => kv.2)

/-- Modelled from the spec: the `Properties` property-bag class
(src/bhopengraph/Properties.py is absent from src/).  The spec treats it as an
opaque ordered string-keyed map with get/set/remove/enumerate/serialize and a
length; we embed it as its ordered list of key/value pairs. -/
abbrev Properties := List (String × JValue)

/-- Modelled from the spec: the `Node` class (src/bhopengraph/Node.py is
absent from src/).  "id: string (immutable, non-empty, globally unique within
a store), kinds: ordered set of string (insertion order preserved, duplicates
collapsed), properties: PropertyBag." -/
structure Node where
  id : String
  kinds : List String
  properties : Properties

/-- Modelled from the spec: adding a kind to a node preserves insertion order
and collapses duplicates, so an already-present kind is not appended again. -/
def Node.add_kind (n : Node) (k : String) : Node :=
  if k ∈ n.kinds then n else { n with kinds := n.kinds ++ [k] }

/-- Modelled from the spec: node serialisation
`{ id, kinds: [...], properties: {...} }`, omitting `properties` if empty. -/
def Node.to_dict (n : Node) : JValue :=
  .obj ([("id", .str n.id), ("kinds", .arr (n.kinds.map JValue.str))] ++
    (if n.properties.isEmpty then [] else [("properties", .obj n.properties)]))

/-- `Edge` from src/bhopengraph/Edge.py: a directed
(start, end, kind) triple plus a property bag. -/
structure Edge where
  start_node_id : String
  end_node_id : String
  kind : String
  properties : Properties := []

/-- The `(start, end, kind)` identity-triple comparison performed by the
duplicate scan in `OpenGraph.addEdge`. -/
def Edge.sameIdentity (e f : Edge) : Bool :=
  e.start_node_id == f.start_node_id && e.end_node_id == f.end_node_id &&
    e.kind == f.kind

/-- `Edge.to_dict` from src/bhopengraph/Edge.py: the serialised shape is
`{kind, start: {value, match_by: "id"}, end: {value, match_by: "id"}}` with a
`properties` key appended only when the bag is non-empty. -/
def Edge.to_dict (e : Edge) : JValue :=
  .obj ([("kind", .str e.kind),
    ("start", .obj [("value", .str e.start_node_id), ("match_by", .str "id")]),
    ("end", .obj [("value", .str e.end_node_id), ("match_by", .str "id")])] ++
    (if 0 < e.properties.length then [("properties", .obj e.properties)] else []))

/-- `OpenGraph` from src/bhopengraph/OpenGraph.py: the node table (a Python
dict, embedded as an insertion-ordered association list with pairwise
distinct keys), the edge list, and the optional source kind. -/
structure OpenGraph where
  nodes : List (String × Node)
  edges : List Edge
  source_kind : Option String
  nodes_nodup : (nodes.map Prod.fst).Nodup

/-- The list of node ids (the keys of the node table), in insertion order. -/
def OpenGraph.nodeIds (g : OpenGraph) : List String :=
  g.nodes.map Prod.fst

/-- Python truthiness of the optional `source_kind` string. -/
def truthySK : Option String → Bool
  | none => false
  | some s => s ≠ ""

/-- `OpenGraph.__init__`: empty node table, empty edge list, optional source
kind. -/
def OpenGraph.init (source_kind : Option String) : OpenGraph :=
  { nodes := [], edges := [], source_kind := source_kind,
    nodes_nodup := List.nodup_nil }

lemma nodup_keys_append {l : List (String × Node)} {id : String} {n : Node}
    (hl : (l.map Prod.fst).Nodup) (h : id ∉ l.map Prod.fst) :
    ((l ++ [(id, n)]).map Prod.fst).Nodup := by
  rw [List.map_append]
  refine List.Nodup.append hl (List.nodup_singleton id) ?_
  intro x hx hx'
  simp only [List.map_cons, List.map_nil, List.mem_singleton] at hx'
  exact h (hx' ▸ hx)

lemma nodup_keys_filter {l : List (String × Node)} (p : String × Node → Bool)
    (hl : (l.map Prod.fst).Nodup) :
    ((l.filter p).map Prod.fst).Nodup :=
  List.Nodup.sublist (List.Sublist.map Prod.fst (List.filter_sublist l)) hl

/-- `OpenGraph.addNode`: fails when the id is already present; otherwise, when
the graph's source kind is truthy and absent from the node's kinds, appends it
to the node, then inserts the node. -/
def OpenGraph.addNode (g : OpenGraph) (node : Node) : OpenGraph × Bool :=
  if h : node.id ∈ g.nodes.map Prod.fst then (g, false)
  else
    let node' :=
      if truthySK g.source_kind ∧ g.source_kind.getD "" ∉ node.kinds then
        node.add_kind (g.source_kind.getD "")
      else node
    ({ nodes := g.nodes ++ [(node.id, node')], edges := g.edges,
       source_kind := g.source_kind,
       nodes_nodup := nodup_keys_append g.nodes_nodup h }, true)

/-- `OpenGraph.addNodes`: applies `addNode` to each element in order,
discarding each individual result, and returns `True` unconditionally. -/
def OpenGraph.addNodes (g : OpenGraph) (ns : List Node) : OpenGraph × Bool :=
  (ns.foldl (fun s n => (s.addNode n).1) g, true)

/-- `OpenGraph.addEdge`: fails when either endpoint id is absent from the node
table or when an edge with the same (start, end, kind) triple already exists;
otherwise appends the edge. -/
def OpenGraph.addEdge (g : OpenGraph) (edge : Edge) : OpenGraph × Bool :=
  if edge.start_node_id ∉ g.nodes.map Prod.fst then (g, false)
  else if edge.end_node_id ∉ g.nodes.map Prod.fst then (g, false)
  else if g.edges.any (fun e => e.sameIdentity edge) then (g, false)
  else ({ g with edges := g.edges ++ [edge] }, true)

/-- `OpenGraph.addEdges`: applies `addEdge` to each element in order, keeping
a running success flag that is cleared by any failure. -/
def OpenGraph.addEdges (g : OpenGraph) (es : List Edge) : OpenGraph × Bool :=
  es.foldl (fun acc e =>
    let r := acc.1.addEdge e
    (r.1, acc.2 && r.2)) (g, true)

/-- `OpenGraph.removeNodeById`: fails when the id is absent; otherwise deletes
the (unique) node-table entry with that key and filters out every edge whose
start or end equals the id. -/
def OpenGraph.removeNodeById (g : OpenGraph) (id : String) : OpenGraph × Bool :=
  if id ∉ g.nodes.map Prod.fst then (g, false)
  else
    ({ nodes := g.nodes.filter (fun kv => kv.1 ≠ id),
       edges := g.edges.filter
         (fun e => e.start_node_id ≠ id ∧ e.end_node_id ≠ id),
       source_kind := g.source_kind,
       nodes_nodup := nodup_keys_filter _ g.nodes_nodup }, true)

/-- `OpenGraph.removeNode`: removal by the node's id. -/
def OpenGraph.removeNode (g : OpenGraph) (node : Node) : OpenGraph × Bool :=
  g.removeNodeById node.id

/-- `OpenGraph.removeNodes`: applies `removeNode` to each element in order,
keeping a running success flag that is cleared by any failure. -/
def OpenGraph.removeNodes (g : OpenGraph) (ns : List Node) : OpenGraph × Bool :=
  ns.foldl (fun acc n =>
    let r := acc.1.removeNode n
    (r.1, acc.2 && r.2)) (g, true)

/-- `OpenGraph.clear`: empties the node table and the edge list; the source
kind field is not touched. -/
def OpenGraph.clear (g : OpenGraph) : OpenGraph :=
  { nodes := [], edges := [], source_kind := g.source_kind,
    nodes_nodup := List.nodup_nil }

/-- `OpenGraph.getEdgesFromNode`: the edges whose start is the given id, in
insertion order. -/
def OpenGraph.getEdgesFromNode (g : OpenGraph) (id : String) : List Edge :=
  g.edges.filter (fun e => e.start_node_id = id)

/-- `OpenGraph.getEdgesToNode`: the edges whose end is the given id, in
insertion order. -/
def OpenGraph.getEdgesToNode (g : OpenGraph) (id : String) : List Edge :=
  g.edges.filter (fun e => e.end_node_id = id)

/-- `OpenGraph.getNodeCount`. -/
def OpenGraph.getNodeCount (g : OpenGraph) : Nat := g.nodes.length

/-- `OpenGraph.getEdgeCount`. -/
def OpenGraph.getEdgeCount (g : OpenGraph) : Nat := g.edges.length

/-- Sequential application of a single-item operation, as the specification
describes the bulk variants: each element is processed in order on the store
produced by its predecessors, with no rollback, and the reported flag is true
exactly when every single-item application succeeded. -/
def applySeq {α : Type} (f : OpenGraph → α → OpenGraph × Bool)
    (g : OpenGraph) : List α → OpenGraph × Bool
  | [] => (g, true)
  | x :: xs =>
    let r := f g x
    let rest := applySeq f r.1 xs
    (rest.1, r.2 && rest.2)

/-- Sample node `A`. -/
def nodeA : Node := ⟨"A", ["User"], []⟩

/-- Sample node `B`. -/
def nodeB : Node := ⟨"B", ["User"], []⟩

/-- Sample node `C`. -/
def nodeC : Node := ⟨"C", ["User"], []⟩

/-- The empty store with no source kind. -/
def gEmpty : OpenGraph := OpenGraph.init none

/-- Store with nodes `A`, `B` and the single edge `A→B`. -/
def gAB : OpenGraph :=
  { nodes := [("A", nodeA), ("B", nodeB)],
    edges := [⟨"A", "B", "Knows", []⟩],
    source_kind := none,
    nodes_nodup := by decide }

/-- Store with nodes `A`, `B`, `C` and edges inserted in the order
`A→B:"Knows"`, `B→C:"Knows"`, `A→C:"Knows"`. -/
def gABC : OpenGraph :=
  { nodes := [("A", nodeA), ("B", nodeB), ("C", nodeC)],
    edges := [⟨"A", "B", "Knows", []⟩, ⟨"B", "C", "Knows", []⟩,
      ⟨"A", "C", "Knows", []⟩],
    source_kind := none,
    nodes_nodup := by decide }

/-- Store holding node `A` and the edge `A→X` whose end id `X` is absent from
the node table; such stores arise through the unchecked insertion path
(`addEdgeWithoutValidation`). -/
def gDangling : OpenGraph :=
  { nodes := [("A", nodeA)],
    edges := [⟨"A", "X", "Knows", []⟩],
    source_kind := none,
    nodes_nodup := by decide }

/-- Store constructed with the empty string as source kind (a non-null but
falsy value in Python). -/
def gSKEmptyStr : OpenGraph := OpenGraph.init (some "")

/-- The queue measure used to show the breadth-first loop of
`OpenGraph.findPaths` terminates: an item whose partial path has `L` nodes
weighs `(E+1) ^ (max_depth + 1 - L)`, where `E` bounds how many successors one
expansion can enqueue. -/
def bfsMeasure (g : OpenGraph) (max_depth : Nat)
    (queue : List (String × List String)) : Nat :=
  (queue.map
    (fun it => (g.edges.length + 1) ^ (max_depth + 1 - it.2.length))).sum

lemma sum_map_const {α : Type} (l : List α) (c : Nat) :
    (l.map (fun _ => c)).sum = l.length * c := by
  induction l with
  | nil => simp
  | cons a l ih =>
    simp [List.map_cons, List.sum_cons, ih, Nat.succ_mul, Nat.add_comm]

/-- The `while queue and len(queue[0][1]) <= max_depth` loop of
`OpenGraph.findPaths`: the loop exits returning the accumulated paths when the
queue empties or the front item's path exceeds `max_depth` nodes; a popped
item whose path has reached `max_depth` nodes is skipped; otherwise each
outgoing edge of the frontier node whose end does not already occur in the
partial path either emits `path ++ [end]` (when the end is the target) or
enqueues it. -/
def findPathsLoop (g : OpenGraph) (end_id : String) (max_depth : Nat) :
    List (String × List String) → List (List String) → List (List String)
  | [], paths => paths
  | (current_id, path) :: rest, paths =>
    if max_depth < path.length then paths
    else if max_depth ≤ path.length then
      findPathsLoop g end_id max_depth rest paths
    else
      let nexts := ((g.getEdgesFromNode current_id).map
        (fun e => e.end_node_id)).filter (fun n => !path.contains n)
      findPathsLoop g end_id max_depth
        (rest ++ (nexts.filter (fun n => !(n == end_id))).map
          (fun n => (n, path ++ [n])))
        (paths ++ (nexts.filter (fun n => n == end_id)).map
          (fun n => path ++ [n]))
  termination_by queue _ => bfsMeasure g max_depth queue
  decreasing_by
  · simp only [bfsMeasure, List.map_cons, List.sum_cons]
    have hpos : 0 < (g.edges.length + 1) ^ (max_depth + 1 - path.length) :=
      Nat.pos_pow_of_pos _ (Nat.succ_pos _)
    omega
  · rename_i h1 h2
    have hlen : path.length < max_depth := by omega
    simp only [bfsMeasure, List.map_cons, List.sum_cons, List.map_append,
      List.sum_append, List.map_map]
    have hcomp :
        ((nexts.filter (fun n => !(n == end_id))).map
          ((fun it => (g.edges.length + 1) ^ (max_depth + 1 - it.2.length)) ∘
            fun n => (n, path ++ [n]))) =
        (nexts.filter (fun n => !(n == end_id))).map
          (fun _ => (g.edges.length + 1) ^ (max_depth - path.length)) := by
      refine List.map_congr_left ?_
      intro n _
      simp only [Function.comp_apply, List.length_append, List.length_cons,
        List.length_nil]
      congr 1
      omega
    rw [hcomp, sum_map_const]
    have hcount : (nexts.filter (fun n => !(n == end_id))).length ≤
        g.edges.length := by
      calc (nexts.filter (fun n => !(n == end_id))).length
          ≤ nexts.length := List.length_filter_le _ _
        _ ≤ ((g.getEdgesFromNode current_id).map
              (fun e => e.end_node_id)).length := List.length_filter_le _ _
        _ = (g.getEdgesFromNode current_id).length := List.length_map _ _
        _ ≤ g.edges.length := List.length_filter_le _ _
    have hkey : max_depth + 1 - path.length = (max_depth - path.length) + 1 :=
      by omega
    have hpow : (g.edges.length + 1) ^ (max_depth + 1 - path.length) =
        (g.edges.length + 1) ^ (max_depth - path.length) *
          (g.edges.length + 1) := by
      rw [hkey, pow_succ]
    have hppos : 0 < (g.edges.length + 1) ^ (max_depth - path.length) :=
      Nat.pos_pow_of_pos _ (Nat.succ_pos _)
    have hmul : (nexts.filter (fun n => !(n == end_id))).length *
        (g.edges.length + 1) ^ (max_depth - path.length) ≤
        g.edges.length * (g.edges.length + 1) ^ (max_depth - path.length) :=
      Nat.mul_le_mul_right _ hcount
    rw [hpow]
    nlinarith [hmul, hppos]

/-- The finite universe of ids the component search can ever visit: node-table
keys together with every edge endpoint (endpoints may lie outside the node
table when edges were inserted through the unchecked path). -/
def gUniv (g : OpenGraph) : Finset String :=
  (g.nodes.map Prod.fst).toFinset ∪
    (g.edges.map Edge.start_node_id).toFinset ∪
    (g.edges.map Edge.end_node_id).toFinset

lemma fromNbr_mem_gUniv {g : OpenGraph} {c n : String}
    (h : n ∈ (g.getEdgesFromNode c).map (fun e => e.end_node_id)) :
    n ∈ gUniv g := by
  rcases List.mem_map.mp h with ⟨e, he, hn⟩
  have he' : e ∈ g.edges := List.mem_of_mem_filter he
  subst hn
  exact Finset.mem_union_right _
    (List.mem_toFinset.mpr (List.mem_map_of_mem Edge.end_node_id he'))

lemma toNbr_mem_gUniv {g : OpenGraph} {c n : String}
    (h : n ∈ (g.getEdgesToNode c).map (fun e => e.start_node_id)) :
    n ∈ gUniv g := by
  rcases List.mem_map.mp h with ⟨e, he, hn⟩
  have he' : e ∈ g.edges := List.mem_of_mem_filter he
  subst hn
  refine Finset.mem_union_left _ (Finset.mem_union_right _ ?_)
  exact List.mem_toFinset.mpr (List.mem_map_of_mem Edge.start_node_id he')

/-- The `while stack` loop of `OpenGraph.getConnectedComponents`: pop the top
of the stack; an already-visited id is dropped; a fresh id is added to both
`visited` and the current component, and the ends of its outgoing edges plus
the starts of its incoming edges that are not yet visited are pushed.  The
Python list stack pushes at the end and pops from the end, so the embedded
stack keeps its top at the list head and pushes the new neighbours reversed,
preserving the exact pop order. -/
def dfsComponent (g : OpenGraph) :
    List String → Finset String → Finset String →
    Finset String × Finset String
  | [], visited, component => (visited, component)
  | current :: stack, visited, component =>
    if current ∈ visited then dfsComponent g stack visited component
    else
      let visited' := insert current visited
      let fromNbrs := ((g.getEdgesFromNode current).map
        (fun e => e.end_node_id)).filter (fun n => n ∉ visited')
      let toNbrs := ((g.getEdgesToNode current).map
        (fun e => e.start_node_id)).filter (fun n => n ∉ visited')
      dfsComponent g ((fromNbrs ++ toNbrs).reverse ++ stack) visited'
        (insert current component)
  termination_by stack visited _ =>
    (((gUniv g ∪ stack.toFinset) \ visited).card, stack.length)
  decreasing_by
  · have hsub : ((gUniv g ∪ stack.toFinset) \ visited).card ≤
        ((gUniv g ∪ (current :: stack).toFinset) \ visited).card := by
      refine Finset.card_le_card ?_
      intro a ha
      rcases Finset.mem_sdiff.mp ha with ⟨ha1, ha2⟩
      refine Finset.mem_sdiff.mpr ⟨?_, ha2⟩
      rcases Finset.mem_union.mp ha1 with h1 | h2
      · exact Finset.mem_union_left _ h1
      · refine Finset.mem_union_right _ ?_
        rw [List.toFinset_cons]
        exact Finset.mem_insert_of_mem h2
    rcases Nat.lt_or_ge ((gUniv g ∪ stack.toFinset) \ visited).card
        ((gUniv g ∪ (current :: stack).toFinset) \ visited).card with hlt | hge
    · exact Prod.Lex.left _ _ hlt
    · have heq : ((gUniv g ∪ stack.toFinset) \ visited).card =
          ((gUniv g ∪ (current :: stack).toFinset) \ visited).card := by
        omega
      rw [heq]
      exact Prod.Lex.right _ (Nat.lt_succ_self _)
  · rename_i hcur
    have hstrict : ((gUniv g ∪
        ((fromNbrs ++ toNbrs).reverse ++ stack).toFinset) \ visited').card <
        ((gUniv g ∪ (current :: stack).toFinset) \ visited).card := by
      refine Finset.card_lt_card ?_
      rw [Finset.ssubset_iff_of_subset]
      · refine ⟨current, ?_, ?_⟩
        · refine Finset.mem_sdiff.mpr ⟨?_, hcur⟩
          refine Finset.mem_union_right _ ?_
          rw [List.toFinset_cons]
          exact Finset.mem_insert_self _ _
        · intro hc
          rcases Finset.mem_sdiff.mp hc with ⟨_, hc2⟩
          exact hc2 (Finset.mem_insert_self _ _)
      · intro a ha
        rcases Finset.mem_sdiff.mp ha with ⟨ha1, ha2⟩
        have ha2' : a ∉ visited := fun hc => ha2 (Finset.mem_insert_of_mem hc)
        refine Finset.mem_sdiff.mpr ⟨?_, ha2'⟩
        rcases Finset.mem_union.mp ha1 with h1 | h2
        · exact Finset.mem_union_left _ h1
        · rw [List.toFinset_append, List.toFinset_reverse,
            List.toFinset_append] at h2
          rcases Finset.mem_union.mp h2 with h3 | h4
          · rcases Finset.mem_union.mp h3 with h5 | h6
            · refine Finset.mem_union_left _ ?_
              exact fromNbr_mem_gUniv (List.mem_of_mem_filter
                (List.mem_toFinset.mp h5))
            · refine Finset.mem_union_left _ ?_
              exact toNbr_mem_gUniv (List.mem_of_mem_filter
                (List.mem_toFinset.mp h6))
          · refine Finset.mem_union_right _ ?_
            rw [List.toFinset_cons]
            exact Finset.mem_insert_of_mem h4
    exact Prod.Lex.left _ _ hstrict

/-- The `for node_id in self.nodes` loop of `getConnectedComponents`: each
not-yet-visited node id seeds a fresh depth-first traversal whose collected
component is appended to the output. -/
def componentsLoop (g : OpenGraph) :
    List (String × Node) → Finset String → List (Finset String) →
    Finset String × List (Finset String)
  | [], visited, comps => (visited, comps)
  | kv :: rest, visited, comps =>
    if kv.1 ∈ visited then componentsLoop g rest visited comps
    else
      let r := dfsComponent g [kv.1] visited ∅
      componentsLoop g rest r.1 (comps ++ [r.2])

/-- `OpenGraph.getConnectedComponents`: undirected connected components,
collected as sets of ids, one per depth-first traversal, in node insertion
order of each traversal seed. -/
def OpenGraph.getConnectedComponents (g : OpenGraph) : List (Finset String) :=
  (componentsLoop g g.nodes ∅ []).2

/-- The problem reports produced by `OpenGraph.validateGraph`.  The Python
code renders each report as an f-string; the rendering is injective on the
interpolated data, so each report is embedded as a constructor carrying that
data: one per edge whose start id is missing from the node table, one per
edge whose end id is missing, and one aggregated entry listing all isolated
node ids. -/
inductive ValidationError where
  | danglingStart (kind id : String) : ValidationError
  | danglingEnd (kind id : String) : ValidationError
  | isolatedNodes (ids : List String) : ValidationError
deriving DecidableEq

/-- `OpenGraph.validateGraph`: scans every edge for endpoints missing from the
node table (start error before end error, in edge order), then appends a
single aggregated report if any node has no incident edge. -/
def OpenGraph.validateGraph (g : OpenGraph) : List ValidationError :=
  let edgeErrors := (g.edges.map (fun e =>
    (if e.start_node_id ∉ g.nodes.map Prod.fst then
      [ValidationError.danglingStart e.kind e.start_node_id] else []) ++
    (if e.end_node_id ∉ g.nodes.map Prod.fst then
      [ValidationError.danglingEnd e.kind e.end_node_id] else []))).flatten
  let isolated := (g.nodes.map Prod.fst).filter (fun id =>
    (g.getEdgesFromNode id).isEmpty && (g.getEdgesToNode id).isEmpty)
  edgeErrors ++
    (if isolated.isEmpty then [] else [ValidationError.isolatedNodes isolated])

/-- The stores reachable from a freshly constructed store using only the
checked mutation entry points `addNode`, `addEdge`, `removeNodeById` and
`clear`. -/
inductive Reachable : OpenGraph → Prop where
  | init (sk : Option String) : Reachable (OpenGraph.init sk)
  | addNode {g : OpenGraph} (n : Node) : Reachable g →
      Reachable (g.addNode n).1
  | addEdge {g : OpenGraph} (e : Edge) : Reachable g →
      Reachable (g.addEdge e).1
  | removeNodeById {g : OpenGraph} (id : String) : Reachable g →
      Reachable (g.removeNodeById id).1
  | clear {g : OpenGraph} : Reachable g → Reachable g.clear

/-- Lookup of a key in a JSON value, defined when the value is an object
(Python `.get` on a dict); any other value has no attribute `get`. -/
def jLookup (v : JValue) (k : String) : Option JValue :=
  match v with
  | .obj fields => dictGet? fields k
  | _ => none

/-- `OpenGraph.exportJSON`: the JSON document built before `json.dumps`
renders it — `{ graph: { nodes: [...], edges: [...] } }` with a trailing
`metadata.source_kind` entry added only when metadata is requested and the
store's source kind is truthy. -/
def OpenGraph.exportJSONValue (g : OpenGraph) (include_metadata : Bool) :
    JValue :=
  .obj ([("graph", .obj
      [("nodes", .arr (g.nodes.map (fun kv => kv.2.to_dict))),
       ("edges", .arr (g.edges.map Edge.to_dict))])] ++
    (if include_metadata && truthySK g.source_kind then
      [("metadata", .obj [("source_kind", .str (g.source_kind.getD ""))])]
    else []))

/-- The dynamically-typed edge object built by `Edge.from_dict`: the Python
`Edge` constructor accepts any values for the decoded fields, so the decoded
triple is kept as JSON values. -/
structure RawEdge where
  start_node_id : JValue
  end_node_id : JValue
  kind : JValue
  properties : List (String × JValue)

/-- The property pairs a decoded `properties` value contributes: the fields
of an object and nothing otherwise. -/
def propsOrEmpty : JValue → List (String × JValue)
  | .obj fs => fs
  | _ => []

/-- The `properties_data` handling of `Edge.from_dict`: a falsy value leaves
the properties empty, a truthy object value has its items copied, and a
truthy non-object value makes `.items()` raise an uncaught
`AttributeError`. -/
def propsOf (pv : JValue) : Except Unit (List (String × JValue)) :=
  match pv with
  | .obj fs => .ok fs
  | pv => if pv.truthy then .error () else .ok []

/-- `Edge.from_dict` from src/bhopengraph/Edge.py on an already-parsed JSON
dictionary.  `Except.error` models an exception escaping the
`except (KeyError, TypeError, ValueError)` handler: `AttributeError` is not in
that tuple, and it is raised when `.get("value")` is called on a non-dict
`start`/`end` value, or when `.items()` is iterated on a truthy non-dict
`properties` value.  `Except.ok none` is the `return None` path, and
`Except.ok (some _)` carries the constructed edge (an empty/falsy `kind`
makes the `Edge` constructor raise `ValueError`, which *is* caught and
becomes `None`). -/
def Edge.from_dict (d : List (String × JValue)) :
    Except Unit (Option RawEdge) :=
  if ¬ dictMem d "kind" then .ok none
  else
    let kind := (dictGet? d "kind").getD .null
    let ids? : Except Unit (Option JValue × Option JValue) :=
      if dictMem d "start" && dictMem d "end" then
        match (dictGet? d "start").getD .null, (dictGet? d "end").getD .null
          with
        | .obj fs, .obj fe => .ok (dictGet? fs "value", dictGet? fe "value")
        | _, _ => .error ()
      else if dictMem d "source" && dictMem d "target" then
        .ok (dictGet? d "source", dictGet? d "target")
      else if dictMem d "start_node_id" && dictMem d "end_node_id" then
        .ok (dictGet? d "start_node_id", dictGet? d "end_node_id")
      else .ok (none, none)
    match ids? with
    | .error _ => .error ()
    | .ok (s?, e?) =>
      let sv := s?.getD .null
      let ev := e?.getD .null
      if !sv.truthy || !ev.truthy then .ok none
      else
        match propsOf ((dictGet? d "properties").getD (.obj [])) with
        | .error _ => .error ()
        | .ok fs =>
          if !kind.truthy then .ok none
          else .ok (some ⟨sv, ev, kind, fs⟩)

/-- The decoding procedure in the amended claim's words: try the three
historical encodings in order — (a) `{start:{value}, end:{value}}`,
(b) `{source, target}`, (c) `{start_node_id, end_node_id}` — and return
`none` when `kind` is missing, when the applicable form yields no truthy
start and end identifier, or when `kind` itself is falsy; otherwise return
the edge carrying the decoded triple and the decoded properties. -/
def fromDictSpec (d : List (String × JValue)) : Option RawEdge :=
  if ¬ dictMem d "kind" then none
  else
    let kind := (dictGet? d "kind").getD .null
    let ids : Option JValue × Option JValue :=
      if dictMem d "start" && dictMem d "end" then
        (jLookup ((dictGet? d "start").getD .null) "value",
         jLookup ((dictGet? d "end").getD .null) "value")
      else if dictMem d "source" && dictMem d "target" then
        (dictGet? d "source", dictGet? d "target")
      else if dictMem d "start_node_id" && dictMem d "end_node_id" then
        (dictGet? d "start_node_id", dictGet? d "end_node_id")
      else (none, none)
    let sv := ids.1.getD .null
    let ev := ids.2.getD .null
    if !sv.truthy || !ev.truthy then none
    else if !kind.truthy then none
    else some ⟨sv, ev, kind,
      propsOrEmpty ((dictGet? d "properties").getD (.obj []))⟩

/-- A dictionary on which `Edge.from_dict` can raise no uncaught exception:
when both `start` and `end` keys are present their values are objects, and a
truthy `properties` value is an object. -/
def GoodDict (d : List (String × JValue)) : Prop :=
  ((dictMem d "start" && dictMem d "end") = true →
    (∃ fs, (dictGet? d "start").getD .null = .obj fs) ∧
    (∃ fe, (dictGet? d "end").getD .null = .obj fe)) ∧
  (∀ pv, (dictGet? d "properties").getD (.obj []) = pv →
    pv.truthy = true → ∃ fs, pv = .obj fs)

/-- The dictionary `{"kind": "K", "start": "a", "end": "b"}`: both endpoint
keys are present but their values are strings, not the nested
`{value: ...}` objects of the BloodHound form. -/
def cexEdgeDict : List (String × JValue) :=
  [("kind", .str "K"), ("start", .str "a"), ("end", .str "b")]

/-- One directed step in the store: some stored edge leads from `x` to `y`. -/
def edgeStep (g : OpenGraph) (x y : String) : Prop :=
  ∃ e ∈ g.edges, e.start_node_id = x ∧ e.end_node_id = y

/-- `p` is a simple directed path from `a` to `b` in `g`: it starts at `a`,
ends at `b`, repeats no node, and every consecutive pair is connected by a
stored edge. -/
def IsSimplePath (g : OpenGraph) (a b : String) (p : List String) : Prop :=
  p.head? = some a ∧ p.getLast? = some b ∧ p.Nodup ∧ p.Chain' (edgeStep g)

/-- `OpenGraph.findPaths`: breadth-first enumeration of the cycle-free paths
from `start_id` to `end_id`; returns `[]` if either endpoint is absent and the
trivial path when `start_id == end_id`. -/
def OpenGraph.findPaths (g : OpenGraph) (start_id end_id : String)
    (max_depth : Nat) : List (List String) :=
  if start_id ∉ g.nodes.map Prod.fst ∨ end_id ∉ g.nodes.map Prod.fst then []
  else if start_id = end_id then [[start_id]]
  else findPathsLoop g end_id max_depth [(start_id, [start_id])] []

end Bhopengraph

namespace Bhopengraph

lemma any_sameIdentity_iff (l : List Edge) (e : Edge) :
    l.any (fun f => f.sameIdentity e) = true ↔
      ∃ f ∈ l, f.start_node_id = e.start_node_id ∧
        f.end_node_id = e.end_node_id ∧ f.kind = e.kind := by
  simp [Edge.sameIdentity, List.any_eq_true, and_assoc]

lemma length_filter_add_length_filter_not {α : Type} (l : List α) (p : α → Bool) :
    (l.filter p).length + (l.filter (fun a => !(p a))).length = l.length := by
  induction l with
  | nil => rfl
  | cons a l ih =>
    by_cases h : p a <;> simp [List.filter_cons, h, ← ih] <;> omega

lemma length_filter_key_ne {l : List (String × Node)} {id : String}
    (hl : (l.map Prod.fst).Nodup) (h : id ∈ l.map Prod.fst) :
    (l.filter (fun kv => kv.1 ≠ id)).length + 1 = l.length := by
  induction l with
  | nil => simp at h
  | cons a l ih =>
    simp only [List.map_cons, List.nodup_cons] at hl
    rcases hl with ⟨ha, hl⟩
    by_cases hid : a.1 = id
    · have hfl : l.filter (fun kv => kv.1 ≠ id) = l := by
        refine List.filter_eq_self.mpr ?_
        intro kv hkv
        simp only [ne_eq, decide_eq_true_eq]
        intro hkvid
        apply ha
        rw [hid, ← hkvid]
        exact List.mem_map_of_mem Prod.fst hkv
      rw [List.filter_cons, if_neg (by simp [hid]), hfl]
      simp
    · have hmem : id ∈ l.map Prod.fst := by
        rcases List.mem_map.mp h with ⟨kv, hkv, hkvid⟩
        rcases List.mem_cons.mp hkv with hkv1 | hkv2
        · exact absurd (hkv1 ▸ hkvid) hid
        · rw [← hkvid]
          exact List.mem_map_of_mem Prod.fst hkv2
      rw [List.filter_cons, if_pos (by simp [hid])]
      simp only [List.length_cons]
      have hrec := ih hl hmem
      omega

/-- **C5.** `addEdge` fails exactly when an endpoint id is absent from the node
table or an edge with the same `(start, end, kind)` triple is already present;
on failure the store is unchanged, and on success the edge list gains exactly
the new edge at its end while the node table and source kind are untouched. -/
theorem addEdge_spec (g : OpenGraph) (e : Edge) :
    ((g.addEdge e).2 = false ↔
      e.start_node_id ∉ g.nodes.map Prod.fst ∨
      e.end_node_id ∉ g.nodes.map Prod.fst ∨
      ∃ f ∈ g.edges, f.start_node_id = e.start_node_id ∧
        f.end_node_id = e.end_node_id ∧ f.kind = e.kind) ∧
    ((g.addEdge e).2 = false → (g.addEdge e).1 = g) ∧
    ((g.addEdge e).2 = true →
      (g.addEdge e).1.nodes = g.nodes ∧
      (g.addEdge e).1.edges = g.edges ++ [e] ∧
      (g.addEdge e).1.source_kind = g.source_kind) := by
  by_cases h1 : e.start_node_id ∈ g.nodes.map Prod.fst
  · by_cases h2 : e.end_node_id ∈ g.nodes.map Prod.fst
    · by_cases h3 : g.edges.any (fun f => f.sameIdentity e) = true
      · have hre : g.addEdge e = (g, false) := by
          simp [OpenGraph.addEdge, h1, h2, h3]
        rw [hre]
        exact ⟨⟨fun _ => Or.inr (Or.inr ((any_sameIdentity_iff _ _).mp h3)),
          fun _ => rfl⟩, fun _ => rfl, fun hc => by simp at hc⟩
      · have hre : g.addEdge e = ({ g with edges := g.edges ++ [e] }, true) := by
          simp [OpenGraph.addEdge, h1, h2, h3]
        rw [hre]
        refine ⟨⟨fun hc => by simp at hc, ?_⟩, fun hc => by simp at hc,
          fun _ => ⟨rfl, rfl, rfl⟩⟩
        rintro (hc | hc | hc)
        · exact absurd h1 hc
        · exact absurd h2 hc
        · exact absurd ((any_sameIdentity_iff _ _).mpr hc) h3
    · have hre : g.addEdge e = (g, false) := by
        simp [OpenGraph.addEdge, h2]
      rw [hre]
      exact ⟨⟨fun _ => Or.inr (Or.inl h2), fun _ => rfl⟩, fun _ => rfl,
        fun hc => by simp at hc⟩
  · have hre : g.addEdge e = (g, false) := by
      simp [OpenGraph.addEdge, h1]
    rw [hre]
    exact ⟨⟨fun _ => Or.inl h1, fun _ => rfl⟩, fun _ => rfl,
      fun hc => by simp at hc⟩

/-- **C5 witness**: on the concrete store `gAB`, re-adding the already present
triple `(A, B, Knows)` fails and leaves the store unchanged. -/
theorem addEdge_spec_witness :
    (gAB.addEdge ⟨"A", "B", "Knows", []⟩).1 = gAB :=
  (addEdge_spec gAB ⟨"A", "B", "Knows", []⟩).2.1 (by decide)

end Bhopengraph

namespace Bhopengraph

lemma edge_filter_complement (l : List Edge) (id : String) :
    (l.filter (fun e => e.start_node_id ≠ id ∧ e.end_node_id ≠ id)).length +
      (l.filter (fun e => e.start_node_id = id ∨ e.end_node_id = id)).length =
      l.length := by
  have h := length_filter_add_length_filter_not l
    (fun e => decide (e.start_node_id ≠ id ∧ e.end_node_id ≠ id))
  have hcongr : l.filter
      (fun e => !(decide (e.start_node_id ≠ id ∧ e.end_node_id ≠ id))) =
      l.filter (fun e => e.start_node_id = id ∨ e.end_node_id = id) := by
    refine List.filter_congr ?_
    intro e _
    by_cases hs : e.start_node_id = id <;> by_cases he : e.end_node_id = id <;>
      simp [hs, he]
  rw [hcongr] at h
  exact h

/-- **C6.** When `id` is present, `removeNodeById` succeeds, shrinks the node
table by exactly one entry, keeps exactly the edges not touching `id` (so the
edge count drops by the number of edges whose start or end equals `id`), and a
repeated removal fails; when `id` is absent it fails and leaves the store
unchanged. -/
theorem removeNodeById_spec (g : OpenGraph) (id : String) :
    (id ∈ g.nodes.map Prod.fst →
      (g.removeNodeById id).2 = true ∧
      (g.removeNodeById id).1.nodes.length + 1 = g.nodes.length ∧
      (g.removeNodeById id).1.edges =
        g.edges.filter (fun e => e.start_node_id ≠ id ∧ e.end_node_id ≠ id) ∧
      (g.removeNodeById id).1.edges.length +
        (g.edges.filter
          (fun e => e.start_node_id = id ∨ e.end_node_id = id)).length =
        g.edges.length ∧
      ((g.removeNodeById id).1.removeNodeById id).2 = false ∧
      ((g.removeNodeById id).1.removeNodeById id).1 =
        (g.removeNodeById id).1) ∧
    (id ∉ g.nodes.map Prod.fst →
      (g.removeNodeById id).2 = false ∧ (g.removeNodeById id).1 = g) := by
  constructor
  · intro h
    have hre : g.removeNodeById id =
        ({ nodes := g.nodes.filter (fun kv => kv.1 ≠ id),
           edges := g.edges.filter
             (fun e => e.start_node_id ≠ id ∧ e.end_node_id ≠ id),
           source_kind := g.source_kind,
           nodes_nodup := nodup_keys_filter _ g.nodes_nodup }, true) := by
      simp [OpenGraph.removeNodeById, h]
    have habsent : id ∉ (g.nodes.filter (fun kv => kv.1 ≠ id)).map Prod.fst := by
      intro hmem
      rcases List.mem_map.mp hmem with ⟨kv, hkv, hkvid⟩
      have := List.of_mem_filter hkv
      simp only [ne_eq, decide_eq_true_eq] at this
      exact this hkvid
    refine ⟨by rw [hre], ?_, by rw [hre], ?_, ?_, ?_⟩
    · rw [hre]
      exact length_filter_key_ne g.nodes_nodup h
    · rw [hre]
      exact edge_filter_complement g.edges id
    · rw [hre]
      simp [OpenGraph.removeNodeById, habsent]
    · rw [hre]
      simp [OpenGraph.removeNodeById, habsent]
  · intro h
    have hre : g.removeNodeById id = (g, false) := by
      simp [OpenGraph.removeNodeById, h]
    rw [hre]
    exact ⟨rfl, rfl⟩

/-- **C6 witness**: removing node `B` from the concrete store `gABC` (which
has two edges touching `B`) succeeds, drops the node count from 3 to 2 and the
edge count from 3 to 1, and repeating the removal fails. -/
theorem removeNodeById_spec_witness :
    (gABC.removeNodeById "B").2 = true ∧
    (gABC.removeNodeById "B").1.nodes.length + 1 = gABC.nodes.length ∧
    (gABC.removeNodeById "B").1.edges =
      gABC.edges.filter
        (fun e => e.start_node_id ≠ "B" ∧ e.end_node_id ≠ "B") ∧
    (gABC.removeNodeById "B").1.edges.length +
      (gABC.edges.filter
        (fun e => e.start_node_id = "B" ∨ e.end_node_id = "B")).length =
      gABC.edges.length ∧
    ((gABC.removeNodeById "B").1.removeNodeById "B").2 = false ∧
    ((gABC.removeNodeById "B").1.removeNodeById "B").1 =
      (gABC.removeNodeById "B").1 :=
  (removeNodeById_spec gABC "B").1 (by decide)

end Bhopengraph

namespace Bhopengraph

lemma applySeq_foldl_flag {α : Type} (f : OpenGraph → α → OpenGraph × Bool)
    (xs : List α) (g : OpenGraph) (b : Bool) :
    xs.foldl (fun acc x =>
      let r := f acc.1 x
      (r.1, acc.2 && r.2)) (g, b) =
      ((applySeq f g xs).1, b && (applySeq f g xs).2) := by
  induction xs generalizing g b with
  | nil => simp [applySeq]
  | cons x xs ih =>
    simp only [List.foldl_cons, applySeq]
    rw [ih]
    simp [Bool.and_assoc]

lemma applySeq_foldl_state {α : Type} (f : OpenGraph → α → OpenGraph × Bool)
    (xs : List α) (g : OpenGraph) :
    xs.foldl (fun s x => (f s x).1) g = (applySeq f g xs).1 := by
  induction xs generalizing g with
  | nil => rfl
  | cons x xs ih =>
    simp only [List.foldl_cons, applySeq]
    exact ih _

/-- **C3 (amended).** `addEdges` and `removeNodes` coincide with sequential
application of the single-item operation: each element is applied in order to
the store left by its predecessors with no rollback, and the returned flag is
the conjunction of the individual results.  `addNodes` performs the same
sequential application of `addNode` but returns `true` unconditionally, even
when an element fails. -/
theorem bulk_ops_spec (g : OpenGraph) (es : List Edge) (ns ms : List Node) :
    g.addEdges es = applySeq OpenGraph.addEdge g es ∧
    g.removeNodes ns = applySeq OpenGraph.removeNode g ns ∧
    (g.addNodes ms).1 = (applySeq OpenGraph.addNode g ms).1 ∧
    (g.addNodes ms).2 = true := by
  refine ⟨?_, ?_, ?_, rfl⟩
  · exact (applySeq_foldl_flag OpenGraph.addEdge es g true).trans (by simp)
  · exact (applySeq_foldl_flag OpenGraph.removeNode ns g true).trans (by simp)
  · exact applySeq_foldl_state OpenGraph.addNode ms g

/-- **C3 counterexample**: `addNodes [A, A]` reports success although its
second element fails (`addNode` refuses the duplicate id), so the bulk node
variant does not report overall failure as the claim states. -/
theorem addNodes_reports_success_cex :
    (gEmpty.addNodes [nodeA, nodeA]).2 = true ∧
    ((gEmpty.addNode nodeA).1.addNode nodeA).2 = false ∧
    (applySeq OpenGraph.addNode gEmpty [nodeA, nodeA]).2 = false := by
  refine ⟨rfl, by decide, by decide⟩

/-- **C10 (amended).** `clear` empties the node table and the edge list while
leaving `source_kind` untouched, and a source kind that is non-null *and
non-empty* is still applied to nodes subsequently added through the checked
path: after a `clear`, `addNode` succeeds and stores the node with the source
kind appended to its kinds. -/
theorem clear_preserves_source_kind (g : OpenGraph) (n : Node) (sk : String)
    (hsk : g.source_kind = some sk) (hne : sk ≠ "") (hk : sk ∉ n.kinds) :
    g.clear.source_kind = g.source_kind ∧
    g.clear.nodes = [] ∧
    g.clear.edges = [] ∧
    (g.clear.addNode n).2 = true ∧
    (g.clear.addNode n).1.nodes =
      [(n.id, { n with kinds := n.kinds ++ [sk] })] := by
  refine ⟨rfl, rfl, rfl, ?_, ?_⟩
  · simp [OpenGraph.addNode, OpenGraph.clear]
  · simp [OpenGraph.addNode, OpenGraph.clear, hsk, truthySK, hne, hk,
      Node.add_kind]

/-- **C10 witness**: clearing `gABC` (no source kind there, so use a store
with source kind `"AD"`), then adding node `A`, stores it with `"AD"`
appended. -/
theorem clear_preserves_source_kind_witness :
    (OpenGraph.init (some "AD")).clear.source_kind =
      (OpenGraph.init (some "AD")).source_kind ∧
    (OpenGraph.init (some "AD")).clear.nodes = [] ∧
    (OpenGraph.init (some "AD")).clear.edges = [] ∧
    ((OpenGraph.init (some "AD")).clear.addNode nodeA).2 = true ∧
    ((OpenGraph.init (some "AD")).clear.addNode nodeA).1.nodes =
      [(nodeA.id, { nodeA with kinds := nodeA.kinds ++ ["AD"] })] :=
  clear_preserves_source_kind (OpenGraph.init (some "AD")) nodeA "AD" rfl
    (by decide) (by decide)

/-- **C10 counterexample**: with the non-null but empty-string source kind,
a node added through the checked path after `clear()` is stored unchanged —
the empty-string source kind is *not* applied to its kinds, because the code
tests Python truthiness (`if self.source_kind`), not non-nullness. -/
theorem clear_source_kind_empty_cex :
    gSKEmptyStr.source_kind ≠ none ∧
    "" ∉ nodeA.kinds ∧
    (gSKEmptyStr.clear.addNode nodeA).1.nodes = [("A", nodeA)] := by
  refine ⟨by simp [gSKEmptyStr, OpenGraph.init], by decide, rfl⟩

end Bhopengraph

namespace Bhopengraph

lemma mem_endsOf {g : OpenGraph} {c n : String} :
    n ∈ (g.getEdgesFromNode c).map (fun e => e.end_node_id) ↔
      edgeStep g c n := by
  simp only [OpenGraph.getEdgesFromNode, edgeStep, List.mem_map,
    List.mem_filter, decide_eq_true_eq]
  constructor
  · rintro ⟨e, ⟨he, hs⟩, hn⟩
    exact ⟨e, he, hs, hn⟩
  · rintro ⟨e, he, hs, hn⟩
    exact ⟨e, ⟨he, hs⟩, hn⟩

lemma mem_nexts_iff {g : OpenGraph} {c n : String} {p : List String} :
    n ∈ ((g.getEdgesFromNode c).map (fun e => e.end_node_id)).filter
      (fun m => !p.contains m) ↔ edgeStep g c n ∧ n ∉ p := by
  rw [List.mem_filter, mem_endsOf]
  constructor
  · rintro ⟨hs, hb⟩
    refine ⟨hs, fun hmem => ?_⟩
    rw [Bool.not_eq_true', ← Bool.not_eq_true] at hb
    exact hb (List.elem_iff.mpr hmem)
  · rintro ⟨hs, hnp⟩
    refine ⟨hs, ?_⟩
    rw [Bool.not_eq_true', ← Bool.not_eq_true]
    intro hc
    exact hnp (List.elem_iff.mp hc)

lemma findPathsLoop_sound (g : OpenGraph) (a b : String) (d : Nat) :
    ∀ (queue : List (String × List String)) (paths : List (List String)),
      (∀ it ∈ queue, it.2.head? = some a ∧ it.2.getLast? = some it.1 ∧
        it.2.Nodup ∧ it.2.Chain' (edgeStep g) ∧ b ∉ it.2 ∧
        it.2.length ≤ d) →
      ∀ q ∈ findPathsLoop g b d queue paths,
        q ∈ paths ∨ (q.head? = some a ∧ q.getLast? = some b ∧ q.Nodup ∧
          q.Chain' (edgeStep g) ∧ q.length ≤ d) := by
  intro queue paths
  induction queue, paths using findPathsLoop.induct g b d with
  | case1 paths =>
    intro _ q hq
    rw [findPathsLoop] at hq
    exact Or.inl hq
  | case2 c p rest paths h1 =>
    intro _ q hq
    rw [findPathsLoop, if_pos h1] at hq
    exact Or.inl hq
  | case3 c p rest paths h1 h2 ih =>
    intro hinv q hq
    rw [findPathsLoop, if_neg h1, if_pos h2] at hq
    exact ih (fun it hit => hinv it (List.mem_cons_of_mem _ hit)) q hq
  | case4 c p rest paths h1 h2 nexts =>
    rename_i ih
    intro hinv q hq
    rw [findPathsLoop, if_neg h1, if_neg h2] at hq
    obtain ⟨hhead, hlast, hnodup, hchain, hnb, _⟩ :=
      hinv (c, p) (List.mem_cons_self _ _)
    have hpne : p ≠ [] := by
      intro hnil
      rw [hnil] at hhead
      simp at hhead
    have hplen : p.length < d := by omega
    have hpush : ∀ it ∈ ((((g.getEdgesFromNode c).map
        (fun e => e.end_node_id)).filter (fun m => !p.contains m)).filter
          (fun n => !(n == b))).map (fun n => (n, p ++ [n])),
        it.2.head? = some a ∧ it.2.getLast? = some it.1 ∧ it.2.Nodup ∧
          it.2.Chain' (edgeStep g) ∧ b ∉ it.2 ∧ it.2.length ≤ d := by
      intro it hit
      rcases List.mem_map.mp hit with ⟨n, hn, hitEq⟩
      rcases List.mem_filter.mp hn with ⟨hn1, hn2⟩
      have hnbne : n ≠ b := by
        intro hcon
        rw [hcon] at hn2
        simp at hn2
      rcases mem_nexts_iff.mp hn1 with ⟨hstep, hnp⟩
      subst hitEq
      refine ⟨?_, ?_, ?_, ?_, ?_, ?_⟩
      · rw [List.head?_append_of_ne_nil _ hpne]
        exact hhead
      · exact List.getLast?_concat p
      · rw [List.nodup_append]
        exact ⟨hnodup, List.nodup_singleton n,
          fun x hx hx' => (List.mem_singleton.mp hx' ▸ hnp) hx⟩
      · rw [List.chain'_append]
        refine ⟨hchain, List.chain'_singleton n, ?_⟩
        intro x hx y hy
        rw [hlast, Option.mem_def] at hx
        simp only [List.head?_cons, Option.mem_def, Option.some_inj] at hy
        cases hx
        cases hy
        exact hstep
      · rw [List.mem_append]
        rintro (hb1 | hb2)
        · exact hnb hb1
        · exact hnbne (List.mem_singleton.mp hb2).symm
      · simp only [List.length_append, List.length_cons, List.length_nil]
        omega
    have hfound : ∀ q' ∈ ((((g.getEdgesFromNode c).map
        (fun e => e.end_node_id)).filter (fun m => !p.contains m)).filter
          (fun n => n == b)).map (fun n => p ++ [n]),
        q'.head? = some a ∧ q'.getLast? = some b ∧ q'.Nodup ∧
          q'.Chain' (edgeStep g) ∧ q'.length ≤ d := by
      intro q' hq'
      rcases List.mem_map.mp hq' with ⟨n, hn, hq'Eq⟩
      rcases List.mem_filter.mp hn with ⟨hn1, hn2⟩
      have hnbeq : n = b := by
        have := hn2
        simp only [beq_iff_eq] at this
        exact this
      rcases mem_nexts_iff.mp hn1 with ⟨hstep, hnp⟩
      subst hq'Eq
      subst hnbeq
      refine ⟨?_, ?_, ?_, ?_, ?_⟩
      · rw [List.head?_append_of_ne_nil _ hpne]
        exact hhead
      · exact List.getLast?_concat p
      · rw [List.nodup_append]
        exact ⟨hnodup, List.nodup_singleton n,
          fun x hx hx' => (List.mem_singleton.mp hx' ▸ hnp) hx⟩
      · rw [List.chain'_append]
        refine ⟨hchain, List.chain'_singleton n, ?_⟩
        intro x hx y hy
        rw [hlast, Option.mem_def] at hx
        simp only [List.head?_cons, Option.mem_def, Option.some_inj] at hy
        cases hx
        cases hy
        exact hstep
      · simp only [List.length_append, List.length_cons, List.length_nil]
        omega
    have hinv' : ∀ it ∈ rest ++ ((((g.getEdgesFromNode c).map
        (fun e => e.end_node_id)).filter (fun m => !p.contains m)).filter
          (fun n => !(n == b))).map (fun n => (n, p ++ [n])),
        it.2.head? = some a ∧ it.2.getLast? = some it.1 ∧ it.2.Nodup ∧
          it.2.Chain' (edgeStep g) ∧ b ∉ it.2 ∧ it.2.length ≤ d := by
      intro it hit
      rcases List.mem_append.mp hit with hit1 | hit2
      · exact hinv it (List.mem_cons_of_mem _ hit1)
      · exact hpush it hit2
    rcases ih hinv' q hq with hql | hqr
    · rcases List.mem_append.mp hql with hql1 | hql2
      · exact Or.inl hql1
      · exact Or.inr (hfound q hql2)
    · exact Or.inr hqr

end Bhopengraph

namespace Bhopengraph

lemma findPathsLoop_complete (g : OpenGraph) (b : String) (d : Nat) :
    ∀ (queue : List (String × List String)) (paths : List (List String)),
      (∀ it ∈ queue, it.2.length ≤ d) →
      ∀ q : List String,
        q.getLast? = some b → q.Nodup → q.Chain' (edgeStep g) →
        q.length ≤ d →
        (q ∈ paths ∨ ∃ it ∈ queue,
          (∃ t, t ≠ [] ∧ it.2 ++ t = q) ∧ it.2.getLast? = some it.1) →
        q ∈ findPathsLoop g b d queue paths := by
  intro queue paths
  induction queue, paths using findPathsLoop.induct g b d with
  | case1 paths =>
    intro _ q _ _ _ _ hw
    rw [findPathsLoop]
    rcases hw with hq | ⟨it, hit, _⟩
    · exact hq
    · simp at hit
  | case2 c p rest paths h1 =>
    intro hlen q _ _ _ _ _
    have hfront := hlen (c, p) (List.mem_cons_self _ _)
    simp only at hfront
    omega
  | case3 c p rest paths h1 h2 ih =>
    intro hlen q hlast hnodup hchain hqlen hw
    rw [findPathsLoop, if_neg h1, if_pos h2]
    apply ih (fun it hit => hlen it (List.mem_cons_of_mem _ hit)) q hlast
      hnodup hchain hqlen
    rcases hw with hq | ⟨it, hit, ⟨t, htne, happ⟩, hitlast⟩
    · exact Or.inl hq
    · rcases List.mem_cons.mp hit with hfront | hrest
      · exfalso
        subst hfront
        have ht1 : 1 ≤ t.length := List.length_pos.mpr htne
        have hqt : q.length = p.length + t.length := by
          rw [← happ, List.length_append]
        omega
      · exact Or.inr ⟨it, hrest, ⟨t, htne, happ⟩, hitlast⟩
  | case4 c p rest paths h1 h2 nexts =>
    rename_i ih
    intro hlen q hlast hnodup hchain hqlen hw
    rw [findPathsLoop, if_neg h1, if_neg h2]
    have hlen' : ∀ it ∈ rest ++
        (nexts.filter (fun n => !(n == b))).map (fun n => (n, p ++ [n])),
        it.2.length ≤ d := by
      intro it hit
      rcases List.mem_append.mp hit with hit1 | hit2
      · exact hlen it (List.mem_cons_of_mem _ hit1)
      · rcases List.mem_map.mp hit2 with ⟨n, _, hitEq⟩
        subst hitEq
        simp only [List.length_append, List.length_cons, List.length_nil]
        omega
    apply ih hlen' q hlast hnodup hchain hqlen
    rcases hw with hq | ⟨it, hit, ⟨t, htne, happ⟩, hitlast⟩
    · exact Or.inl (List.mem_append_left _ hq)
    · rcases List.mem_cons.mp hit with hfront | hrest
      · subst hfront
        simp only at hitlast happ
        cases t with
        | nil => exact absurd rfl htne
        | cons n t' =>
          have hnodup2 : (p ++ n :: t').Nodup := by
            rw [happ]
            exact hnodup
          have hchain2 : (p ++ n :: t').Chain' (edgeStep g) := by
            rw [happ]
            exact hchain
          have hdisj := (List.nodup_append.mp hnodup2).2.2
          have hnp : n ∉ p := fun hc => hdisj hc (List.mem_cons_self n t')
          have hstep : edgeStep g c n := by
            rcases List.chain'_append.mp hchain2 with ⟨_, _, hmid⟩
            exact hmid c hitlast n rfl
          have hnn : n ∈ nexts := mem_nexts_iff.mpr ⟨hstep, hnp⟩
          by_cases hnb : n = b
          · have hndr := (List.nodup_append.mp hnodup2).2.1
            have ht' : t' = [] := by
              by_contra hne
              have hlast2 : q.getLast? = (n :: t').getLast? := by
                rw [← happ]
                exact List.getLast?_append_of_ne_nil _ (by simp)
              have hlast3 : (n :: t').getLast? = t'.getLast? := by
                cases t' with
                | nil => exact absurd rfl hne
                | cons z zs => rw [List.getLast?_cons_cons]
              have hbt' : b ∈ t' := by
                have hgl : t'.getLast? = some b := by
                  rw [← hlast3, ← hlast2]
                  exact hlast
                exact List.mem_of_mem_getLast? hgl
              exact (List.nodup_cons.mp hndr).1 (hnb ▸ hbt')
            subst ht'
            refine Or.inl (List.mem_append_right _ ?_)
            refine List.mem_map.mpr ⟨n, ?_, ?_⟩
            · exact List.mem_filter.mpr ⟨hnn, by simp [hnb]⟩
            · exact happ
          · have ht'ne : t' ≠ [] := by
              intro hc
              subst hc
              rw [← happ, List.getLast?_concat] at hlast
              exact hnb (Option.some_inj.mp hlast)
            refine Or.inr ⟨(n, p ++ [n]), ?_, ⟨t', ht'ne, ?_⟩, ?_⟩
            · refine List.mem_append_right _ (List.mem_map.mpr ⟨n, ?_, rfl⟩)
              exact List.mem_filter.mpr ⟨hnn, by simp [hnb]⟩
            · rw [List.append_assoc]
              simpa using happ
            · exact List.getLast?_concat p
      · exact Or.inr ⟨it, List.mem_append_left _ hrest, ⟨t, htne, happ⟩,
          hitlast⟩

end Bhopengraph

namespace Bhopengraph

lemma two_le_length_of_head_ne_last {p : List String} {a b : String}
    (hh : p.head? = some a) (hl : p.getLast? = some b) (hab : a ≠ b) :
    2 ≤ p.length := by
  match p with
  | [] => simp at hh
  | [x] =>
    rw [List.head?_cons, Option.some_inj] at hh
    rw [List.getLast?_singleton, Option.some_inj] at hl
    exact absurd (hh.symm.trans hl) hab
  | x :: y :: t => simp [List.length_cons]

/-- **C1 (amended).** For distinct node ids `a`, `b` both present in the
store, `findPaths(a, b, d)` returns exactly the simple directed paths from `a`
to `b` that use at most `d` *nodes*, i.e. at most `d - 1` edges (not `d` edges
as claimed): membership in the result is equivalent to being a duplicate-free
edge-connected path from `a` to `b` of length at most `d`. -/
theorem findPaths_spec (g : OpenGraph) (a b : String) (d : Nat)
    (ha : a ∈ g.nodes.map Prod.fst) (hb : b ∈ g.nodes.map Prod.fst)
    (hab : a ≠ b) (p : List String) :
    p ∈ g.findPaths a b d ↔ IsSimplePath g a b p ∧ p.length ≤ d := by
  have hcond : ¬(a ∉ g.nodes.map Prod.fst ∨ b ∉ g.nodes.map Prod.fst) := by
    push_neg
    exact ⟨ha, hb⟩
  rw [OpenGraph.findPaths, if_neg hcond, if_neg hab]
  by_cases hd : d = 0
  · subst hd
    rw [findPathsLoop, if_pos (by norm_num)]
    simp only [List.not_mem_nil, false_iff]
    rintro ⟨⟨hh, _, _, _⟩, hlen⟩
    have hpnil : p = [] := List.length_eq_zero.mp (Nat.le_zero.mp hlen)
    rw [hpnil] at hh
    simp at hh
  · constructor
    · intro hp
      have hinv : ∀ it ∈ ([((a : String), [a])] :
          List (String × List String)), it.2.head? = some a ∧
          it.2.getLast? = some it.1 ∧ it.2.Nodup ∧
          it.2.Chain' (edgeStep g) ∧ b ∉ it.2 ∧ it.2.length ≤ d := by
        intro it hit
        have hiteq : it = (a, [a]) := List.mem_singleton.mp hit
        subst hiteq
        refine ⟨rfl, rfl, List.nodup_singleton a, List.chain'_singleton a,
          ?_, ?_⟩
        · intro hbmem
          exact hab (List.mem_singleton.mp hbmem).symm
        · simp only [List.length_cons, List.length_nil]
          omega
      rcases findPathsLoop_sound g a b d [(a, [a])] [] hinv p hp with
        h0 | hgood
      · simp at h0
      · exact ⟨⟨hgood.1, hgood.2.1, hgood.2.2.1, hgood.2.2.2.1⟩,
          hgood.2.2.2.2⟩
    · rintro ⟨⟨hh, hl, hnd, hch⟩, hlen⟩
      have hlens : ∀ it ∈ ([((a : String), [a])] :
          List (String × List String)), it.2.length ≤ d := by
        intro it hit
        have hiteq : it = (a, [a]) := List.mem_singleton.mp hit
        subst hiteq
        simp only [List.length_cons, List.length_nil]
        omega
      apply findPathsLoop_complete g b d [(a, [a])] [] hlens p hl hnd hch hlen
      have h2 : 2 ≤ p.length := two_le_length_of_head_ne_last hh hl hab
      cases p with
      | nil => simp at hh
      | cons x q' =>
        have hx : x = a := by
          rw [List.head?_cons, Option.some_inj] at hh
          exact hh
        refine Or.inr ⟨(a, [a]), List.mem_singleton.mpr rfl,
          ⟨q', ?_, by simp [hx]⟩, rfl⟩
        intro hc
        rw [hc] at h2
        simp at h2

/-- **C1 witness**: the amended characterisation applied to the concrete store
`gABC`, target depth 3, and the candidate path `[A, B, C]`. -/
theorem findPaths_spec_witness :
    ["A", "B", "C"] ∈ gABC.findPaths "A" "C" 3 ↔
      IsSimplePath gABC "A" "C" ["A", "B", "C"] ∧
        (["A", "B", "C"] : List String).length ≤ 3 :=
  findPaths_spec gABC "A" "C" 3 (by decide) (by decide) (by decide)
    ["A", "B", "C"]

/-- **C1 counterexample**: in `gAB` the direct edge `A→B` exists and
`[A, B]` is a simple path using one edge, yet `findPaths("A", "B", 1)` returns
`[]` — `max_depth` bounds the number of *nodes* of a path, not its edges, so
the claim's "findPaths(a, b, 1) includes [a, b]" fails. -/
theorem findPaths_maxdepth_cex :
    gAB.findPaths "A" "B" 1 = [] ∧
    (⟨"A", "B", "Knows", []⟩ : Edge) ∈ gAB.edges ∧
    IsSimplePath gAB "A" "B" ["A", "B"] := by
  refine ⟨?_, ?_, ?_, ?_, ?_, ?_⟩
  · rw [OpenGraph.findPaths, if_neg (by decide), if_neg (by decide)]
    rw [findPathsLoop, if_neg (by norm_num), if_pos (by norm_num)]
    rw [findPathsLoop]
  · simp [gAB]
  · rfl
  · rfl
  · decide
  · refine List.chain'_cons.mpr ⟨?_, List.chain'_singleton "B"⟩
    exact ⟨⟨"A", "B", "Knows", []⟩, by simp [gAB], rfl, rfl⟩

end Bhopengraph

namespace Bhopengraph

lemma findPathsLoop_sorted (g : OpenGraph) (b : String) (d : Nat) :
    ∀ (queue : List (String × List String)) (paths : List (List String)),
      queue.Pairwise (fun it1 it2 => it1.2.length ≤ it2.2.length ∧
        it2.2.length ≤ it1.2.length + 1) →
      paths.Pairwise (fun q1 q2 => q1.length ≤ q2.length) →
      (∀ q ∈ paths, ∀ it ∈ queue, q.length ≤ it.2.length + 1) →
      (findPathsLoop g b d queue paths).Pairwise
        (fun q1 q2 => q1.length ≤ q2.length) := by
  intro queue paths
  induction queue, paths using findPathsLoop.induct g b d with
  | case1 paths =>
    intro _ hpp _
    rw [findPathsLoop]
    exact hpp
  | case2 c p rest paths h1 =>
    intro _ hpp _
    rw [findPathsLoop, if_pos h1]
    exact hpp
  | case3 c p rest paths h1 h2 ih =>
    intro hqp hpp hcross
    rw [findPathsLoop, if_neg h1, if_pos h2]
    exact ih (List.pairwise_cons.mp hqp).2 hpp
      (fun q hq it hit => hcross q hq it (List.mem_cons_of_mem _ hit))
  | case4 c p rest paths h1 h2 nexts =>
    rename_i ih
    intro hqp hpp hcross
    rw [findPathsLoop, if_neg h1, if_neg h2]
    rcases List.pairwise_cons.mp hqp with ⟨hfr, hrest⟩
    have hpushlen : ∀ it ∈ (nexts.filter (fun n => !(n == b))).map
        (fun n => (n, p ++ [n])), it.2.length = p.length + 1 := by
      intro it hit
      rcases List.mem_map.mp hit with ⟨n, _, hitEq⟩
      subst hitEq
      simp
    have hfoundlen : ∀ q ∈ (nexts.filter (fun n => n == b)).map
        (fun n => p ++ [n]), q.length = p.length + 1 := by
      intro q hq
      rcases List.mem_map.mp hq with ⟨n, _, hqEq⟩
      subst hqEq
      simp
    apply ih
    · rw [List.pairwise_append]
      refine ⟨hrest, ?_, ?_⟩
      · refine List.pairwise_of_forall_mem_list ?_
        intro it1 hit1 it2 hit2
        rw [hpushlen it1 hit1, hpushlen it2 hit2]
        omega
      · intro it1 hit1 it2 hit2
        have hfr' : p.length ≤ it1.2.length ∧ it1.2.length ≤ p.length + 1 :=
          hfr it1 hit1
        rw [hpushlen it2 hit2]
        omega
    · rw [List.pairwise_append]
      refine ⟨hpp, ?_, ?_⟩
      · refine List.pairwise_of_forall_mem_list ?_
        intro q1 hq1 q2 hq2
        rw [hfoundlen q1 hq1, hfoundlen q2 hq2]
      · intro q1 hq1 q2 hq2
        rw [hfoundlen q2 hq2]
        have h3 : q1.length ≤ p.length + 1 :=
          hcross q1 hq1 (c, p) (List.mem_cons_self _ _)
        omega
    · intro q hq it hit
      rcases List.mem_append.mp hq with hq1 | hq2
      · have h3 : q.length ≤ p.length + 1 :=
          hcross q hq1 (c, p) (List.mem_cons_self _ _)
        rcases List.mem_append.mp hit with hit1 | hit2
        · have hfr' : p.length ≤ it.2.length ∧ it.2.length ≤ p.length + 1 :=
            hfr it hit1
          omega
        · rw [hpushlen it hit2]
          omega
      · rw [hfoundlen q hq2]
        rcases List.mem_append.mp hit with hit1 | hit2
        · have hfr' : p.length ≤ it.2.length ∧ it.2.length ≤ p.length + 1 :=
            hfr it hit1
          omega
        · rw [hpushlen it hit2]
          omega

/-- **C7.** `findPaths` emits paths in discovery order: in every result list
the path lengths are non-decreasing (shorter paths appear before longer
ones), and on the concrete scenario — store with nodes `{A,B,C}` and edges
inserted in the order `A→B:"Knows"`, `B→C:"Knows"`, `A→C:"Knows"` —
`findPaths(A, C, 5)` returns exactly `[[A, C], [A, B, C]]` in that order,
the tie inside one expansion being broken by edge insertion order. -/
theorem findPaths_discovery_order :
    (∀ (g : OpenGraph) (a b : String) (d : Nat),
      (g.findPaths a b d).Pairwise (fun q1 q2 => q1.length ≤ q2.length)) ∧
    gABC.findPaths "A" "C" 5 = [["A", "C"], ["A", "B", "C"]] := by
  constructor
  · intro g a b d
    rw [OpenGraph.findPaths]
    by_cases hc : a ∉ g.nodes.map Prod.fst ∨ b ∉ g.nodes.map Prod.fst
    · rw [if_pos hc]
      exact List.Pairwise.nil
    · rw [if_neg hc]
      by_cases hab : a = b
      · rw [if_pos hab]
        exact List.pairwise_singleton _ _
      · rw [if_neg hab]
        apply findPathsLoop_sorted g b d
        · exact List.pairwise_singleton _ _
        · exact List.Pairwise.nil
        · intro q hq
          simp at hq
  · simp only [OpenGraph.findPaths, gABC]
    norm_num
    simp [findPathsLoop, OpenGraph.getEdgesFromNode, nodeA, nodeB, nodeC]

end Bhopengraph

namespace Bhopengraph

lemma dfsComponent_mono (g : OpenGraph) :
    ∀ (stack : List String) (visited component : Finset String),
      visited ⊆ (dfsComponent g stack visited component).1 := by
  intro stack visited component
  induction stack, visited, component using dfsComponent.induct g with
  | case1 visited component =>
    rw [dfsComponent]
  | case2 current stack visited component h ih =>
    rw [dfsComponent, if_pos h]
    exact ih
  | case3 current stack visited component h visited' fromNbrs toNbrs =>
    rename_i ih
    rw [dfsComponent, if_neg h]
    exact (Finset.subset_insert current visited).trans ih

lemma dfsComponent_stack_mem (g : OpenGraph) :
    ∀ (stack : List String) (visited component : Finset String),
      ∀ x ∈ stack, x ∈ (dfsComponent g stack visited component).1 := by
  intro stack visited component
  induction stack, visited, component using dfsComponent.induct g with
  | case1 visited component =>
    intro x hx
    simp at hx
  | case2 current stack visited component h ih =>
    intro x hx
    rw [dfsComponent, if_pos h]
    rcases List.mem_cons.mp hx with hx1 | hx2
    · subst hx1
      exact dfsComponent_mono g stack visited component h
    · exact ih x hx2
  | case3 current stack visited component h visited' fromNbrs toNbrs =>
    rename_i ih
    intro x hx
    rw [dfsComponent, if_neg h]
    rcases List.mem_cons.mp hx with hx1 | hx2
    · subst hx1
      exact dfsComponent_mono g _ _ _ (Finset.mem_insert_self x visited)
    · exact ih x (List.mem_append_right _ hx2)

lemma dfsComponent_component_eq (g : OpenGraph) :
    ∀ (stack : List String) (visited component : Finset String),
      (dfsComponent g stack visited component).2 =
        component ∪ ((dfsComponent g stack visited component).1 \ visited) := by
  intro stack visited component
  induction stack, visited, component using dfsComponent.induct g with
  | case1 visited component =>
    rw [dfsComponent]
    simp
  | case2 current stack visited component h ih =>
    rw [dfsComponent, if_pos h]
    exact ih
  | case3 current stack visited component h visited' fromNbrs toNbrs =>
    rename_i ih
    rw [dfsComponent, if_neg h]
    rw [ih]
    have hcr : current ∈ (dfsComponent g
        ((fromNbrs ++ toNbrs).reverse ++ stack) visited'
        (insert current component)).1 :=
      dfsComponent_mono g _ _ _ (Finset.mem_insert_self current visited)
    revert hcr
    generalize (dfsComponent g ((fromNbrs ++ toNbrs).reverse ++ stack)
      visited' (insert current component)) = r
    intro hcr
    ext a
    simp only [Finset.mem_union, Finset.mem_insert, Finset.mem_sdiff]
    by_cases hac : a = current
    · subst hac
      simp only [true_or, or_true, true_iff]
      exact Or.inr ⟨hcr, h⟩
    · simp only [hac, false_or]
      constructor
      · rintro (hc | ⟨h1, h2⟩)
        · exact Or.inl hc
        · refine Or.inr ⟨h1, fun hv => h2 ?_⟩
          exact Finset.mem_insert_of_mem hv
      · rintro (hc | ⟨h1, h2⟩)
        · exact Or.inl hc
        · refine Or.inr ⟨h1, fun hv => ?_⟩
          rcases Finset.mem_insert.mp hv with hv1 | hv2
          · exact hac hv1
          · exact h2 hv2

lemma dfsComponent_subset (g : OpenGraph) (S : Finset String)
    (hS : ∀ e ∈ g.edges, e.start_node_id ∈ S ∧ e.end_node_id ∈ S) :
    ∀ (stack : List String) (visited component : Finset String),
      (∀ x ∈ stack, x ∈ S) →
      (dfsComponent g stack visited component).1 ⊆ visited ∪ S := by
  intro stack visited component
  induction stack, visited, component using dfsComponent.induct g with
  | case1 visited component =>
    intro _
    rw [dfsComponent]
    exact Finset.subset_union_left
  | case2 current stack visited component h ih =>
    intro hst
    rw [dfsComponent, if_pos h]
    exact ih (fun x hx => hst x (List.mem_cons_of_mem _ hx))
  | case3 current stack visited component h visited' fromNbrs toNbrs =>
    rename_i ih
    intro hst
    rw [dfsComponent, if_neg h]
    have hcs : current ∈ S := hst current (List.mem_cons_self _ _)
    have hst' : ∀ x ∈ (fromNbrs ++ toNbrs).reverse ++ stack, x ∈ S := by
      intro x hx
      rcases List.mem_append.mp hx with hx1 | hx2
      · rcases List.mem_append.mp (List.mem_reverse.mp hx1) with hx3 | hx4
        · rcases List.mem_map.mp (List.mem_of_mem_filter hx3) with ⟨e, he, hn⟩
          subst hn
          exact (hS e (List.mem_of_mem_filter he)).2
        · rcases List.mem_map.mp (List.mem_of_mem_filter hx4) with ⟨e, he, hn⟩
          subst hn
          exact (hS e (List.mem_of_mem_filter he)).1
      · exact hst x (List.mem_cons_of_mem _ hx2)
    refine (ih hst').trans ?_
    intro a ha
    rcases Finset.mem_union.mp ha with ha1 | ha2
    · rcases Finset.mem_insert.mp ha1 with ha3 | ha4
      · exact Finset.mem_union_right _ (ha3 ▸ hcs)
      · exact Finset.mem_union_left _ ha4
    · exact Finset.mem_union_right _ ha2

lemma foldl_union_singleton (comps : List (Finset String))
    (init c : Finset String) :
    (comps ++ [c]).foldl (· ∪ ·) init = comps.foldl (· ∪ ·) init ∪ c := by
  rw [List.foldl_append]
  rfl

lemma subset_foldl_union (comps : List (Finset String)) (init : Finset String) :
    init ⊆ comps.foldl (· ∪ ·) init := by
  induction comps generalizing init with
  | nil => exact subset_rfl
  | cons c comps ih =>
    rw [List.foldl_cons]
    exact Finset.subset_union_left.trans (ih (init ∪ c))

lemma mem_subset_foldl_union (comps : List (Finset String))
    (init : Finset String) :
    ∀ s ∈ comps, s ⊆ comps.foldl (· ∪ ·) init := by
  induction comps generalizing init with
  | nil =>
    intro s hs
    simp at hs
  | cons c comps ih =>
    intro s hs
    rw [List.foldl_cons]
    rcases List.mem_cons.mp hs with hs1 | hs2
    · subst hs1
      exact Finset.subset_union_right.trans (subset_foldl_union comps _)
    · exact ih (init ∪ c) s hs2

lemma componentsLoop_spec (g : OpenGraph) :
    ∀ (l : List (String × Node)) (visited : Finset String)
      (comps : List (Finset String)),
      visited = comps.foldl (· ∪ ·) ∅ →
      comps.Pairwise Disjoint →
      (componentsLoop g l visited comps).1 =
        (componentsLoop g l visited comps).2.foldl (· ∪ ·) ∅ ∧
      (componentsLoop g l visited comps).2.Pairwise Disjoint ∧
      (∀ kv ∈ l, kv.1 ∈ (componentsLoop g l visited comps).1) ∧
      visited ⊆ (componentsLoop g l visited comps).1 := by
  intro l
  induction l with
  | nil =>
    intro visited comps hv hd
    rw [componentsLoop]
    exact ⟨hv, hd, fun kv hkv => absurd hkv (List.not_mem_nil kv), subset_rfl⟩
  | cons kv rest ih =>
    intro visited comps hv hd
    by_cases hm : kv.1 ∈ visited
    · rw [componentsLoop, if_pos hm]
      rcases ih visited comps hv hd with ⟨h1, h2, h3, h4⟩
      refine ⟨h1, h2, ?_, h4⟩
      intro kv' hkv'
      rcases List.mem_cons.mp hkv' with hk1 | hk2
      · subst hk1
        exact h4 hm
      · exact h3 kv' hk2
    · rw [componentsLoop, if_neg hm]
      have hmono : visited ⊆ (dfsComponent g [kv.1] visited ∅).1 :=
        dfsComponent_mono g _ _ _
      have hcomp : (dfsComponent g [kv.1] visited ∅).2 =
          (dfsComponent g [kv.1] visited ∅).1 \ visited := by
        rw [dfsComponent_component_eq g]
        simp
      have hseed : kv.1 ∈ (dfsComponent g [kv.1] visited ∅).1 :=
        dfsComponent_stack_mem g _ _ _ kv.1 (List.mem_singleton.mpr rfl)
      have hv' : (dfsComponent g [kv.1] visited ∅).1 =
          (comps ++ [(dfsComponent g [kv.1] visited ∅).2]).foldl (· ∪ ·) ∅ := by
        rw [foldl_union_singleton, ← hv, hcomp]
        exact (Finset.union_sdiff_of_subset hmono).symm
      have hd' : (comps ++ [(dfsComponent g [kv.1] visited ∅).2]).Pairwise
          Disjoint := by
        rw [List.pairwise_append]
        refine ⟨hd, List.pairwise_singleton _ _, ?_⟩
        intro s hs t ht
        rcases List.mem_singleton.mp ht with rfl
        rw [hcomp]
        rw [Finset.disjoint_left]
        intro a ha hc
        rcases Finset.mem_sdiff.mp hc with ⟨_, hnv⟩
        exact hnv (hv ▸ mem_subset_foldl_union comps ∅ s hs ha)
      rcases ih (dfsComponent g [kv.1] visited ∅).1
        (comps ++ [(dfsComponent g [kv.1] visited ∅).2]) hv' hd' with
        ⟨h1, h2, h3, h4⟩
      refine ⟨h1, h2, ?_, hmono.trans h4⟩
      intro kv' hkv'
      rcases List.mem_cons.mp hkv' with hk1 | hk2
      · subst hk1
        exact h4 hseed
      · exact h3 kv' hk2

lemma componentsLoop_subset (g : OpenGraph) (S : Finset String)
    (hS : ∀ e ∈ g.edges, e.start_node_id ∈ S ∧ e.end_node_id ∈ S) :
    ∀ (l : List (String × Node)) (visited : Finset String)
      (comps : List (Finset String)),
      (∀ kv ∈ l, kv.1 ∈ S) →
      (componentsLoop g l visited comps).1 ⊆ visited ∪ S := by
  intro l
  induction l with
  | nil =>
    intro visited comps _
    rw [componentsLoop]
    exact Finset.subset_union_left
  | cons kv rest ih =>
    intro visited comps hl
    by_cases hm : kv.1 ∈ visited
    · rw [componentsLoop, if_pos hm]
      exact ih visited comps (fun kv' h => hl kv' (List.mem_cons_of_mem _ h))
    · rw [componentsLoop, if_neg hm]
      have hdfs : (dfsComponent g [kv.1] visited ∅).1 ⊆ visited ∪ S := by
        refine dfsComponent_subset g S hS [kv.1] visited ∅ ?_
        intro x hx
        rcases List.mem_singleton.mp hx with rfl
        exact hl kv (List.mem_cons_self _ _)
      refine (ih _ _ (fun kv' h => hl kv' (List.mem_cons_of_mem _ h))).trans ?_
      intro a ha
      rcases Finset.mem_union.mp ha with ha1 | ha2
      · exact (hdfs ha1)
      · exact Finset.mem_union_right _ ha2

/-- **C2 (amended).** `getConnectedComponents()` always returns pairwise
disjoint sets whose union covers every id in the node table; when every edge
endpoint is present in the node table (always true for stores mutated only
through the checked path) the union equals exactly the node-id set.  When an
unchecked edge references an id absent from the node table, that id is
traversed and reported inside a component as well, so the union can strictly
exceed the node-id set. -/
theorem getConnectedComponents_partition (g : OpenGraph) :
    g.getConnectedComponents.Pairwise Disjoint ∧
    (∀ kv ∈ g.nodes, kv.1 ∈ g.getConnectedComponents.foldl (· ∪ ·) ∅) ∧
    ((∀ e ∈ g.edges, e.start_node_id ∈ g.nodes.map Prod.fst ∧
        e.end_node_id ∈ g.nodes.map Prod.fst) →
      g.getConnectedComponents.foldl (· ∪ ·) ∅ =
        (g.nodes.map Prod.fst).toFinset) := by
  rcases componentsLoop_spec g g.nodes ∅ [] rfl List.Pairwise.nil with
    ⟨h1, h2, h3, _⟩
  refine ⟨h2, ?_, ?_⟩
  · intro kv hkv
    rw [OpenGraph.getConnectedComponents, ← h1]
    exact h3 kv hkv
  · intro hcl
    rw [OpenGraph.getConnectedComponents, ← h1]
    apply Finset.Subset.antisymm
    · have := componentsLoop_subset g (g.nodes.map Prod.fst).toFinset
        (fun e he => ⟨List.mem_toFinset.mpr (hcl e he).1,
          List.mem_toFinset.mpr (hcl e he).2⟩) g.nodes ∅ []
        (fun kv hkv => List.mem_toFinset.mpr
          (List.mem_map_of_mem Prod.fst hkv))
      refine this.trans ?_
      simp
    · intro a ha
      rcases List.mem_map.mp (List.mem_toFinset.mp ha) with ⟨kv, hkv, hkva⟩
      exact hkva ▸ h3 kv hkv

end Bhopengraph

namespace Bhopengraph

/-- **C2 witness**: on the concrete store `gABC` (all edge endpoints present),
the union of the returned components is exactly the node-id set. -/
theorem getConnectedComponents_partition_witness :
    gABC.getConnectedComponents.foldl (· ∪ ·) ∅ =
      (gABC.nodes.map Prod.fst).toFinset :=
  (getConnectedComponents_partition gABC).2.2 (by decide)

/-- **C2 counterexample**: on `gDangling` (node `A`, unchecked edge `A→X` with
`X` absent from the node table) the traversal visits and reports `X`, so the
union of the returned components is *not* the node-id set — the claim's "this
holds for every store, including stores containing edges inserted through the
unchecked path whose endpoints are absent from the node table" fails. -/
theorem getConnectedComponents_union_cex :
    gDangling.getConnectedComponents = [insert "X" (insert "A" ∅)] ∧
    "X" ∉ gDangling.nodes.map Prod.fst ∧
    gDangling.getConnectedComponents.foldl (· ∪ ·) ∅ ≠
      (gDangling.nodes.map Prod.fst).toFinset := by
  have hev : gDangling.getConnectedComponents =
      [insert "X" (insert "A" ∅)] := by
    simp [OpenGraph.getConnectedComponents, componentsLoop, dfsComponent,
      gDangling, OpenGraph.getEdgesFromNode, OpenGraph.getEdgesToNode, nodeA]
  refine ⟨hev, by decide, ?_⟩
  intro hc
  have hx : "X" ∈ gDangling.getConnectedComponents.foldl (· ∪ ·) ∅ := by
    rw [hev]
    simp
  rw [hc] at hx
  rw [List.mem_toFinset] at hx
  simp [gDangling] at hx

end Bhopengraph

namespace Bhopengraph

lemma mem_keys_filter_of_ne {l : List (String × Node)} {x id : String}
    (hx : x ∈ l.map Prod.fst) (hne : x ≠ id) :
    x ∈ (l.filter (fun kv => kv.1 ≠ id)).map Prod.fst := by
  rcases List.mem_map.mp hx with ⟨kv, hkv, hkvx⟩
  subst hkvx
  exact List.mem_map_of_mem Prod.fst
    (List.mem_filter.mpr ⟨hkv, by simp [hne]⟩)

/-- Referential invariant of the checked mutation path: in every reachable
store each stored edge's start and end ids are present in the node table. -/
lemma reachable_endpoints {g : OpenGraph} (h : Reachable g) :
    ∀ e ∈ g.edges, e.start_node_id ∈ g.nodes.map Prod.fst ∧
      e.end_node_id ∈ g.nodes.map Prod.fst := by
  induction h with
  | init sk =>
    intro e he
    simp [OpenGraph.init] at he
  | addNode n hg ih =>
    intro e he
    rename_i g'
    by_cases hid : n.id ∈ g'.nodes.map Prod.fst
    · rw [OpenGraph.addNode, dif_pos hid] at he ⊢
      exact ih e he
    · rw [OpenGraph.addNode, dif_neg hid] at he ⊢
      simp only [List.map_append] at *
      rcases ih e he with ⟨h1, h2⟩
      exact ⟨List.mem_append_left _ h1, List.mem_append_left _ h2⟩
  | addEdge e' hg ih =>
    intro e he
    rename_i g'
    by_cases h1 : e'.start_node_id ∉ g'.nodes.map Prod.fst
    · rw [OpenGraph.addEdge, if_pos h1] at he ⊢
      exact ih e he
    · by_cases h2 : e'.end_node_id ∉ g'.nodes.map Prod.fst
      · rw [OpenGraph.addEdge, if_neg h1, if_pos h2] at he ⊢
        exact ih e he
      · by_cases h3 : g'.edges.any (fun f => f.sameIdentity e') = true
        · rw [OpenGraph.addEdge, if_neg h1, if_neg h2, if_pos h3] at he ⊢
          exact ih e he
        · rw [OpenGraph.addEdge, if_neg h1, if_neg h2, if_neg h3] at he ⊢
          simp only [List.mem_append, List.mem_singleton] at he
          rcases he with he1 | he2
          · exact ih e he1
          · subst he2
            push_neg at h1 h2
            exact ⟨h1, h2⟩
  | removeNodeById id hg ih =>
    intro e he
    rename_i g'
    by_cases hid : id ∉ g'.nodes.map Prod.fst
    · rw [OpenGraph.removeNodeById, if_pos hid] at he ⊢
      exact ih e he
    · rw [OpenGraph.removeNodeById, if_neg hid] at he ⊢
      simp only [List.mem_filter] at he
      rcases he with ⟨he1, he2⟩
      simp only [ne_eq, Bool.decide_and, Bool.and_eq_true, decide_eq_true_eq]
        at he2
      rcases ih e he1 with ⟨h1, h2⟩
      exact ⟨mem_keys_filter_of_ne h1 he2.1, mem_keys_filter_of_ne h2 he2.2⟩
  | clear hg ih =>
    intro e he
    simp [OpenGraph.clear] at he

/-- **C4 (amended).** On every store reachable from a fresh store through only
the checked operations, every problem `validateGraph()` reports concerns
isolated nodes: the dangling-endpoint scans contribute nothing, so the result
is empty exactly when the store has no isolated node; a reachable store *can*
have isolated nodes (any node added without edges), in which case
`validateGraph()` is non-empty. -/
theorem validateGraph_reachable (g : OpenGraph) (h : Reachable g) :
    (∀ err ∈ g.validateGraph, ∃ ids, err = ValidationError.isolatedNodes ids) ∧
    (g.validateGraph = [] ↔ ∀ id ∈ g.nodes.map Prod.fst,
      ¬(g.getEdgesFromNode id = [] ∧ g.getEdgesToNode id = [])) := by
  have hedges : (g.edges.map (fun e =>
      (if e.start_node_id ∉ g.nodes.map Prod.fst then
        [ValidationError.danglingStart e.kind e.start_node_id] else []) ++
      (if e.end_node_id ∉ g.nodes.map Prod.fst then
        [ValidationError.danglingEnd e.kind e.end_node_id] else []))).flatten
      = [] := by
    rw [List.flatten_eq_nil_iff]
    intro l hl
    rcases List.mem_map.mp hl with ⟨e, he, hle⟩
    rcases reachable_endpoints h e he with ⟨h1, h2⟩
    rw [← hle, if_neg (by simpa using h1), if_neg (by simpa using h2)]
    rfl
  rw [OpenGraph.validateGraph]
  simp only [hedges, List.nil_append]
  constructor
  · intro err herr
    by_cases hiso : ((g.nodes.map Prod.fst).filter (fun id =>
        (g.getEdgesFromNode id).isEmpty &&
          (g.getEdgesToNode id).isEmpty)).isEmpty
    · rw [if_pos hiso] at herr
      simp at herr
    · rw [if_neg hiso] at herr
      rcases List.mem_singleton.mp herr with rfl
      exact ⟨_, rfl⟩
  · by_cases hiso : ((g.nodes.map Prod.fst).filter (fun id =>
        (g.getEdgesFromNode id).isEmpty &&
          (g.getEdgesToNode id).isEmpty)).isEmpty
    · rw [if_pos hiso]
      simp only [true_iff]
      intro id hid hc
      rw [List.isEmpty_iff] at hiso
      have : id ∈ (g.nodes.map Prod.fst).filter (fun id =>
          (g.getEdgesFromNode id).isEmpty && (g.getEdgesToNode id).isEmpty) :=
        List.mem_filter.mpr ⟨hid, by
          simp only [Bool.and_eq_true, List.isEmpty_iff]
          exact hc⟩
      rw [hiso] at this
      exact List.not_mem_nil id this
    · rw [if_neg hiso]
      constructor
      · intro hc
        exact absurd hc (List.cons_ne_nil _ _)
      · intro hall
        exfalso
        rw [List.isEmpty_iff] at hiso
        rcases List.exists_mem_of_ne_nil _ hiso with ⟨id, hid⟩
        rcases List.mem_filter.mp hid with ⟨hid1, hid2⟩
        simp only [Bool.and_eq_true, List.isEmpty_iff] at hid2
        exact hall id hid1 hid2

end Bhopengraph

namespace Bhopengraph

/-- **C4 witness**: the amended statement applied to the concrete reachable
store obtained by adding node `A` to a fresh store. -/
theorem validateGraph_reachable_witness :
    (∀ err ∈ (gEmpty.addNode nodeA).1.validateGraph,
      ∃ ids, err = ValidationError.isolatedNodes ids) ∧
    ((gEmpty.addNode nodeA).1.validateGraph = [] ↔
      ∀ id ∈ (gEmpty.addNode nodeA).1.nodes.map Prod.fst,
        ¬((gEmpty.addNode nodeA).1.getEdgesFromNode id = [] ∧
          (gEmpty.addNode nodeA).1.getEdgesToNode id = [])) :=
  validateGraph_reachable (gEmpty.addNode nodeA).1
    (Reachable.addNode nodeA (Reachable.init none))

/-- **C4 counterexample**: the store holding the single node `A`, reachable
through the checked path alone, makes `validateGraph()` report the isolated
node — the claim that every checked-reachable store validates to the empty
list fails. -/
theorem validateGraph_checked_cex :
    Reachable ((gEmpty.addNode nodeA).1) ∧
    (gEmpty.addNode nodeA).1.validateGraph =
      [ValidationError.isolatedNodes ["A"]] ∧
    (gEmpty.addNode nodeA).1.validateGraph ≠ [] := by
  refine ⟨Reachable.addNode nodeA (Reachable.init none), ?_, ?_⟩
  · rfl
  · intro hc
    simp [OpenGraph.validateGraph, OpenGraph.addNode, gEmpty, OpenGraph.init,
      truthySK, OpenGraph.getEdgesFromNode, OpenGraph.getEdgesToNode] at hc

end Bhopengraph

namespace Bhopengraph

lemma propsOf_good {pv : JValue} (h : pv.truthy = true → ∃ fs, pv = .obj fs) :
    propsOf pv = .ok (propsOrEmpty pv) := by
  cases pv with
  | obj fs => rfl
  | null => rfl
  | jbool b =>
    cases b with
    | false => rfl
    | true =>
      rcases h rfl with ⟨fs, hfs⟩
      cases hfs
  | str s =>
    by_cases hs : s = ""
    · subst hs
      rfl
    · rcases h (by simp [JValue.truthy, hs]) with ⟨fs, hfs⟩
      cases hfs
  | num n =>
    by_cases hn : n = 0
    · subst hn
      rfl
    · rcases h (by simp [JValue.truthy, hn]) with ⟨fs, hfs⟩
      cases hfs
  | arr elems =>
    cases elems with
    | nil => rfl
    | cons x xs =>
      rcases h (by simp [JValue.truthy]) with ⟨fs, hfs⟩
      cases hfs

/-- **C8 (amended).** On every input dictionary whose `start`/`end` values
(when both keys are present) are objects and whose `properties` value (when
present and truthy) is an object, `Edge.from_dict` raises nothing and decodes
by trying the three historical encodings in order, returning `None` when
`kind` is missing *or falsy* or when the applicable form yields no truthy
start and end identifier, and otherwise an edge carrying the decoded
`(start, end, kind)` triple.  On other dictionaries — e.g. a plain-string
`start`/`end`, or a truthy non-object `properties` — it instead raises an
uncaught `AttributeError` rather than returning `None`. -/
theorem from_dict_spec (d : List (String × JValue)) (hd : GoodDict d) :
    Edge.from_dict d = .ok (fromDictSpec d) := by
  rw [Edge.from_dict, fromDictSpec]
  by_cases hk : dictMem d "kind" = true
  · rw [if_neg (not_not_intro hk), if_neg (not_not_intro hk)]
    have hprops := propsOf_good (hd.2 _ rfl)
    by_cases h1 : (dictMem d "start" && dictMem d "end") = true
    · rcases hd.1 h1 with ⟨⟨fs, hfs⟩, ⟨fe, hfe⟩⟩
      rw [if_pos h1, if_pos h1, hfs, hfe]
      simp only [jLookup]
      by_cases htr : (!((dictGet? fs "value").getD .null).truthy ||
          !((dictGet? fe "value").getD .null).truthy) = true
      · rw [if_pos htr, if_pos htr]
      · rw [if_neg htr, if_neg htr, hprops]
        simp only []
        by_cases hkt : (!((dictGet? d "kind").getD .null).truthy) = true
        · rw [if_pos hkt, if_pos hkt]
        · rw [if_neg hkt, if_neg hkt]
    · rw [if_neg h1, if_neg h1]
      by_cases h2 : (dictMem d "source" && dictMem d "target") = true
      · rw [if_pos h2, if_pos h2]
        simp only []
        by_cases htr : (!((dictGet? d "source").getD .null).truthy ||
            !((dictGet? d "target").getD .null).truthy) = true
        · rw [if_pos htr, if_pos htr]
        · rw [if_neg htr, if_neg htr, hprops]
          simp only []
          by_cases hkt : (!((dictGet? d "kind").getD .null).truthy) = true
          · rw [if_pos hkt, if_pos hkt]
          · rw [if_neg hkt, if_neg hkt]
      · rw [if_neg h2, if_neg h2]
        by_cases h3 : (dictMem d "start_node_id" &&
            dictMem d "end_node_id") = true
        · rw [if_pos h3, if_pos h3]
          simp only []
          by_cases htr : (!((dictGet? d "start_node_id").getD .null).truthy ||
              !((dictGet? d "end_node_id").getD .null).truthy) = true
          · rw [if_pos htr, if_pos htr]
          · rw [if_neg htr, if_neg htr, hprops]
            simp only []
            by_cases hkt : (!((dictGet? d "kind").getD .null).truthy) = true
            · rw [if_pos hkt, if_pos hkt]
            · rw [if_neg hkt, if_neg hkt]
        · rw [if_neg h3, if_neg h3]
          simp only []
          rw [if_pos (by simp [JValue.truthy]),
            if_pos (by simp [JValue.truthy])]
  · rw [if_pos (by simpa using hk), if_pos (by simpa using hk)]

/-- **C8 witness**: the amended characterisation applied to a well-formed
BloodHound-form dictionary, which decodes to the `(a, b, K)` triple. -/
theorem from_dict_spec_witness :
    Edge.from_dict
      [("kind", JValue.str "K"),
       ("start", JValue.obj [("value", JValue.str "a")]),
       ("end", JValue.obj [("value", JValue.str "b")])] =
    .ok (fromDictSpec
      [("kind", JValue.str "K"),
       ("start", JValue.obj [("value", JValue.str "a")]),
       ("end", JValue.obj [("value", JValue.str "b")])]) :=
  from_dict_spec _ (by
    constructor
    · intro _
      exact ⟨⟨[("value", JValue.str "a")], rfl⟩,
        ⟨[("value", JValue.str "b")], rfl⟩⟩
    · intro pv hpv htr
      rw [← hpv] at htr ⊢
      exact ⟨[], rfl⟩)

/-- **C8 counterexample**: on `{"kind": "K", "start": "a", "end": "b"}` —
string-valued endpoints under the form the code commits to once both `start`
and `end` keys are present — `Edge.from_dict` raises an uncaught
`AttributeError` (`'str' object has no attribute 'get'`) instead of returning
`None` or an `Edge`, so "returns None (never raises)" fails. -/
theorem from_dict_raises_cex :
    Edge.from_dict cexEdgeDict = .error () ∧
    dictMem cexEdgeDict "kind" = true := by
  exact ⟨rfl, rfl⟩

end Bhopengraph

namespace Bhopengraph

lemma truthySK_iff {o : Option String} :
    truthySK o = true ↔ ∃ sk, o = some sk ∧ sk ≠ "" := by
  cases o with
  | none => simp [truthySK]
  | some s => simp [truthySK]

/-- **C9 (amended).** The exported document has the shape
`{ graph: { nodes: [...], edges: [...] } }`; each edge serialises to
`{ kind, start: {value, match_by: "id"}, end: {value, match_by: "id"} }` with
the `properties` key present exactly when the edge's property bag is
non-empty; and the top-level `metadata` key (carrying `source_kind`) is
present exactly when `includeMetadata` is requested and the store's
`sourceKind` is non-null *and non-empty* (Python truthiness, not mere
non-nullness, is tested). -/
theorem exportJSON_shape (g : OpenGraph) (b : Bool) :
    jLookup (g.exportJSONValue b) "graph" =
      some (.obj [("nodes", .arr (g.nodes.map (fun kv => kv.2.to_dict))),
        ("edges", .arr (g.edges.map Edge.to_dict))]) ∧
    (jLookup (g.exportJSONValue b) "metadata" ≠ none ↔
      b = true ∧ ∃ sk, g.source_kind = some sk ∧ sk ≠ "") ∧
    (∀ e : Edge,
      jLookup e.to_dict "kind" = some (.str e.kind) ∧
      jLookup e.to_dict "start" =
        some (.obj [("value", .str e.start_node_id),
          ("match_by", .str "id")]) ∧
      jLookup e.to_dict "end" =
        some (.obj [("value", .str e.end_node_id),
          ("match_by", .str "id")]) ∧
      (jLookup e.to_dict "properties" ≠ none ↔ e.properties ≠ [])) := by
  refine ⟨rfl, ?_, ?_⟩
  · by_cases hc : (b && truthySK g.source_kind) = true
    · have hm : jLookup (g.exportJSONValue b) "metadata" =
          some (.obj [("source_kind", .str (g.source_kind.getD ""))]) := by
        rw [OpenGraph.exportJSONValue, if_pos hc]
        rfl
      rw [hm]
      simp only [Bool.and_eq_true] at hc
      rcases hc with ⟨hb, hsk⟩
      constructor
      · intro _
        exact ⟨hb, truthySK_iff.mp hsk⟩
      · intro _
        exact fun hcon => Option.noConfusion hcon
    · have hm : jLookup (g.exportJSONValue b) "metadata" = none := by
        rw [OpenGraph.exportJSONValue, if_neg hc]
        rfl
      rw [hm]
      constructor
      · intro hcon
        exact absurd rfl hcon
      · rintro ⟨hb, hsk⟩
        exact absurd (by rw [hb, truthySK_iff.mpr hsk]; rfl) hc
  · intro e
    refine ⟨rfl, rfl, rfl, ?_⟩
    by_cases hp : 0 < e.properties.length
    · have hm : jLookup e.to_dict "properties" =
          some (.obj e.properties) := by
        rw [Edge.to_dict, if_pos hp]
        rfl
      rw [hm]
      constructor
      · intro _
        intro hcon
        rw [hcon] at hp
        simp at hp
      · intro _
        exact fun hcon => Option.noConfusion hcon
    · have hm : jLookup e.to_dict "properties" = none := by
        rw [Edge.to_dict, if_neg hp]
        rfl
      rw [hm]
      constructor
      · intro hcon
        exact absurd rfl hcon
      · intro hne
        exact absurd (List.length_pos.mpr hne) hp

/-- **C9 counterexample**: with the non-null but empty-string source kind and
`includeMetadata = true`, the exported document has *no* `metadata` key —
the code tests `if include_metadata and self.source_kind:` (truthiness), so
non-nullness alone does not make `metadata.source_kind` appear. -/
theorem exportJSON_metadata_empty_cex :
    gSKEmptyStr.source_kind ≠ none ∧
    jLookup (gSKEmptyStr.exportJSONValue true) "metadata" = none := by
  exact ⟨by simp [gSKEmptyStr, OpenGraph.init], rfl⟩

end Bhopengraph
